import Mathlib

/-!
Verification development for the jsonpathx playground core utilities:
the JSONPath query synthesizer (filter expressions, array slices, query
assembly, surface validation), the schema analyzer, the recursive search
and highlight helpers, the CSV flattener, and the performance analytics
ring with its distribution histogram.

The TypeScript sources are embedded shallowly:

* JS strings are Lean `String` / `List Char`; the handful of string
  primitives whose built-in Lean counterparts do not reduce in the kernel
  (`startsWith`, ordering) are re-implemented over `List Char`.
* JS numbers that carry quantities (execution times, scores) are `Rat`;
  JSON numeric literals are modeled as `Int` (the exotic float-formatting
  corner of JS is outside every claim considered here).
* The impure inputs of the metrics hook (generated id, `Date.now()`) are
  passed as explicit parameters.
-/

/-! ### Basic character and string helpers -/

/-- Decimal digit test, as the regex class `\d`. -/
def isDigitChar (c : Char) : Bool := 48 ≤ c.val && c.val ≤ 57

/-- Whitespace as trimmed by `String.prototype.trim`. -/
def jsWhitespace (c : Char) : Bool :=
  c = ' ' || c = '\t' || c = '\n' || c = '\r' || c.val = 11 || c.val = 12 ||
  c.val = 0xA0 || c.val = 0x2028 || c.val = 0x2029 || c.val = 0xFEFF

/-- Model of `String.prototype.trim`. -/
def jsTrim (s : String) : String :=
  ⟨((s.toList.dropWhile jsWhitespace).reverse.dropWhile jsWhitespace).reverse⟩

/-- Model of `String.prototype.startsWith`, re-implemented so that it reduces. -/
def jsStartsWith (s pat : String) : Bool := pat.toList.isPrefixOf s.toList

/-- Model of `String.prototype.endsWith`, re-implemented so that it reduces. -/
def jsEndsWith (s pat : String) : Bool := pat.toList.isSuffixOf s.toList

/-- Position of the first occurrence of `pat` in `hay` at or after `start`,
as `String.prototype.indexOf(pat, start)`; `none` stands for `-1`. -/
def indexOfFrom (hay pat : List Char) (start : Nat) : Option Nat :=
  (List.range (hay.length + 1)).find? (fun i => decide (start ≤ i) && pat.isPrefixOf (hay.drop i))

/-- Model of `String.prototype.includes`. -/
def containsSub (hay pat : List Char) : Bool := (indexOfFrom hay pat 0).isSome

/-- Character-wise lower casing, the model of `String.prototype.toLowerCase`. -/
def lowerStr (s : String) : String := ⟨s.toList.map Char.toLower⟩

/-- Decimal digits of a positive number, accumulator style; the first
argument is fuel, always called with at least as much fuel as digits. -/
def natToStrAux : Nat → Nat → List Char → List Char
  | _, 0, acc => acc
  | 0, _, acc => acc
  | fuel + 1, n, acc => natToStrAux fuel (n / 10) (Char.ofNat (48 + n % 10) :: acc)

/-- Decimal rendering of a natural number. -/
def natToStr (n : Nat) : String := if n = 0 then "0" else ⟨natToStrAux n n []⟩

/-- Decimal rendering of an integer, as JS renders integral numbers. -/
def intToStr (n : Int) : String :=
  if n < 0 then "-" ++ natToStr (-n).toNat else natToStr n.toNat

/-- The single-quote character, used by the filter synthesizer to quote
non-numeric comparison values. -/
def squote : String := ⟨[Char.ofNat 39]⟩

/-- Model of `isNaN(Number(s))` being FALSE: after trimming, the string is
empty (`Number` of it is `0`) or is a decimal literal with optional sign,
fraction and exponent, a hex / octal / binary literal, or `Infinity`. -/
def jsNumericString (s : String) : Bool :=
  let cs := (s.toList.dropWhile jsWhitespace).reverse.dropWhile jsWhitespace |>.reverse
  match cs with
  | [] => true
  | '+' :: rest => jsUnsignedDecimal rest
  | '-' :: rest => jsUnsignedDecimal rest
  | '0' :: 'x' :: rest => rest ≠ [] && rest.all (fun c => isDigitChar c ||
      (97 ≤ c.val && c.val ≤ 102) || (65 ≤ c.val && c.val ≤ 70))
  | '0' :: 'X' :: rest => rest ≠ [] && rest.all (fun c => isDigitChar c ||
      (97 ≤ c.val && c.val ≤ 102) || (65 ≤ c.val && c.val ≤ 70))
  | '0' :: 'o' :: rest => rest ≠ [] && rest.all (fun c => 48 ≤ c.val && c.val ≤ 55)
  | '0' :: 'O' :: rest => rest ≠ [] && rest.all (fun c => 48 ≤ c.val && c.val ≤ 55)
  | '0' :: 'b' :: rest => rest ≠ [] && rest.all (fun c => c = '0' || c = '1')
  | '0' :: 'B' :: rest => rest ≠ [] && rest.all (fun c => c = '0' || c = '1')
  | rest => jsUnsignedDecimal rest
where
  /-- Exponent part of a decimal literal, or nothing. -/
  jsExponent : List Char → Bool
    | [] => true
    | 'e' :: rest => jsSignedDigits rest
    | 'E' :: rest => jsSignedDigits rest
    | _ => false
  /-- Optionally signed non-empty digit run. -/
  jsSignedDigits : List Char → Bool
    | '+' :: rest => rest ≠ [] && rest.all isDigitChar
    | '-' :: rest => rest ≠ [] && rest.all isDigitChar
    | rest => rest ≠ [] && rest.all isDigitChar
  /-- Decimal literal without sign: `Infinity`, `d+ [. d*] [exp]` or `. d+ [exp]`. -/
  jsUnsignedDecimal (cs : List Char) : Bool :=
    if cs = ['I', 'n', 'f', 'i', 'n', 'i', 't', 'y'] then true
    else
      let ds := cs.takeWhile isDigitChar
      let r := cs.dropWhile isDigitChar
      if ds ≠ [] then
        match r with
        | [] => true
        | '.' :: r2 => jsExponent (r2.dropWhile isDigitChar)
        | _ => jsExponent r
      else
        match r with
        | '.' :: r2 => r2.takeWhile isDigitChar ≠ [] && jsExponent (r2.dropWhile isDigitChar)
        | _ => false

/-! ### Query-builder data model (types/query-builder.ts) -/

/-- The `OperatorType` union. -/
inductive OperatorType where
  | opEq | opNe | opLt | opGt | opLe | opGe | opContains | opRegex | opExists
deriving DecidableEq, Repr

/-- The `LogicalOperator` union. -/
inductive LogicalOperator where
  | AND | OR
deriving DecidableEq, Repr

/-- The `FilterCondition` record; `logicalOperator` is optional exactly as in the source. -/
structure FilterCondition where
  id : String
  property : String
  operator : OperatorType
  value : String
  logicalOperator : Option LogicalOperator := none
deriving DecidableEq, Repr

/-- The `ArraySlice` record; the `end` field is renamed `endVal` (`end` is reserved). -/
structure ArraySlice where
  start : Option Int := none
  endVal : Option Int := none
  step : Option Int := none
deriving DecidableEq, Repr

/-! ### Filter expression synthesis (`generateFilterExpression`) -/

/-- The comparison value of a condition: bare when `Number(value)` is not
NaN, otherwise wrapped in single quotes. -/
def renderFilterValue (value : String) : String :=
  if jsNumericString value then value else squote ++ value ++ squote

/-- The per-condition expression fragment of the `switch` in
`generateFilterExpression` (without the logical-operator separator). -/
def conditionFor (f : FilterCondition) : String :=
  let prop := "@." ++ f.property
  match f.operator with
  | .opEq => prop ++ " == " ++ renderFilterValue f.value
  | .opNe => prop ++ " != " ++ renderFilterValue f.value
  | .opLt => prop ++ " < " ++ renderFilterValue f.value
  | .opGt => prop ++ " > " ++ renderFilterValue f.value
  | .opLe => prop ++ " <= " ++ renderFilterValue f.value
  | .opGe => prop ++ " >= " ++ renderFilterValue f.value
  | .opContains => prop ++ " =~ /" ++ f.value ++ "/i"
  | .opRegex => prop ++ " =~ /" ++ f.value ++ "/"
  | .opExists => prop

/-- The separator contributed by a stored logical operator: `&&` for AND,
`||` for OR, nothing when absent (JS falsiness of `undefined`). -/
def logicalSep : Option LogicalOperator → String
  | some .AND => " && "
  | some .OR => " || "
  | none => ""

/-- The indexed `map` of `generateFilterExpression`: every condition with
index above zero is prefixed by its logical-operator separator. -/
def filterFragments : Nat → List FilterCondition → List String
  | _, [] => []
  | i, f :: fs =>
    ((if 0 < i then logicalSep f.logicalOperator else "") ++ conditionFor f) ::
      filterFragments (i + 1) fs

/-- Function `generateFilterExpression` of query-builder-utils. -/
def generateFilterExpression : List FilterCondition → String
  | [] => ""
  | filters => "[?(" ++ String.join (filterFragments 0 filters) ++ ")]"

/-! ### Array slice synthesis (`generateArraySlice`) -/

/-- Function `generateArraySlice`: `start`/`end` default to the empty string via
`??`; the `step` test is JS truthiness, so a present step of `0` falls
through to the `[start:end]` / `[*]` branches. -/
def generateArraySlice (slice : ArraySlice) : String :=
  let start := match slice.start with | some n => intToStr n | none => ""
  let endS := match slice.endVal with | some n => intToStr n | none => ""
  let stepTruthy : Bool := match slice.step with | some st => decide (st ≠ 0) | none => false
  if stepTruthy then
    "[" ++ start ++ ":" ++ endS ++ ":" ++
      (match slice.step with | some st => intToStr st | none => "") ++ "]"
  else if start ≠ "" ∨ endS ≠ "" then
    "[" ++ start ++ ":" ++ endS ++ "]"
  else
    "[*]"

/-! ### Query assembly (`buildJsonPathQuery`) -/

/-- Function `buildJsonPathQuery` of query-builder-utils. -/
def buildJsonPathQuery (rootPath : String) (selectedPath : List String)
    (filters : List FilterCondition) (arraySlice : Option ArraySlice)
    (recursiveDescent : Bool) : String :=
  let q0 := if rootPath = "" then "$" else rootPath
  let q1 := if recursiveDescent ∧ selectedPath ≠ [] then q0 ++ ".." else q0
  let q2 :=
    if selectedPath ≠ [] then
      let pathStr := String.intercalate "." selectedPath
      if jsEndsWith q1 "$" then q1 ++ "." ++ pathStr
      else if !(jsEndsWith q1 "..") then q1 ++ "." ++ pathStr
      else q1 ++ pathStr
    else q1
  let q3 := match arraySlice with | some s => q2 ++ generateArraySlice s | none => q2
  match filters with
  | [] => q3
  | _ => q3 ++ generateFilterExpression filters

/-! ### Surface validation (`isValidJsonPath`) -/

/-- The bracket characters the validator extracts with its regex. -/
def isBracketChar (c : Char) : Bool := c = '[' || c = ']' || c = '(' || c = ')'

/-- The depth-scanning loop of `isValidJsonPath`: increment on `[`/`(`,
decrement on `]`/`)`, fail as soon as the depth goes negative, and require
depth zero at the end. -/
def bracketScan : List Char → Int → Bool
  | [], depth => depth == 0
  | c :: rest, depth =>
    let d := if c = '[' ∨ c = '(' then depth + 1
             else if c = ']' ∨ c = ')' then depth - 1
             else depth
    if d < 0 then false else bracketScan rest d

/-- Function `isValidJsonPath` of query-builder-utils. -/
def isValidJsonPath (query : String) : Bool :=
  if query = "" then false
  else if !(jsStartsWith query "$" || jsStartsWith query "@") then false
  else bracketScan (query.toList.filter isBracketChar) 0

/-! ### JSON values

JSON numeric literals are modeled as integers; none of the properties
below depend on the float-formatting behavior of JS. -/

/-- A JSON value. -/
inductive Json where
  | null
  | bool (b : Bool)
  | num (n : Int)
  | str (s : String)
  | arr (items : List Json)
  | obj (entries : List (String × Json))

mutual
/-- Model of the `String(value)` coercion: primitives render directly, arrays join their
elements with commas, plain objects render as `[object Object]`. -/
def jsToString : Json → String
  | .null => "null"
  | .bool true => "true"
  | .bool false => "false"
  | .num n => intToStr n
  | .str s => s
  | .arr items => String.intercalate "," (jsToStringList items)
  | .obj _ => "[object Object]"

/-- Pointwise `String(·)` over a list of values. -/
def jsToStringList : List Json → List String
  | [] => []
  | v :: rest => jsToString v :: jsToStringList rest
end

/-- JSON string escaping for `JSON.stringify` (quotes, backslashes and the
common control characters; other characters pass through unchanged). -/
def escapeJsonChars : List Char → List Char
  | [] => []
  | c :: rest =>
    if c = '"' then '\\' :: '"' :: escapeJsonChars rest
    else if c = '\\' then '\\' :: '\\' :: escapeJsonChars rest
    else if c = '\n' then '\\' :: 'n' :: escapeJsonChars rest
    else if c = '\r' then '\\' :: 'r' :: escapeJsonChars rest
    else if c = '\t' then '\\' :: 't' :: escapeJsonChars rest
    else c :: escapeJsonChars rest

/-- A JSON string literal with its surrounding double quotes. -/
def jsonQuote (s : String) : String := "\"" ++ ⟨escapeJsonChars s.toList⟩ ++ "\""

mutual
/-- Model of `JSON.stringify` over the modeled JSON universe. -/
def jsonStringify : Json → String
  | .null => "null"
  | .bool true => "true"
  | .bool false => "false"
  | .num n => intToStr n
  | .str s => jsonQuote s
  | .arr items => "[" ++ String.intercalate "," (jsonStringifyList items) ++ "]"
  | .obj entries => "\x7b" ++ String.intercalate "," (jsonStringifyEntries entries) ++ "\x7d"

/-- Stringified elements of a JSON array. -/
def jsonStringifyList : List Json → List String
  | [] => []
  | v :: rest => jsonStringify v :: jsonStringifyList rest

/-- Stringified `"key":value` members of a JSON object. -/
def jsonStringifyEntries : List (String × Json) → List String
  | [] => []
  | (k, v) :: rest => (jsonQuote k ++ ":" ++ jsonStringify v) :: jsonStringifyEntries rest
end

/-! ### Schema analyzer (`analyzeSchema`) -/

/-- The `type` classification of a field: `null` is checked before the
generic object case, arrays are their own kind, everything else is the
`typeof` of the primitive. -/
inductive JType where
  | object | array | string | number | boolean | null
deriving DecidableEq, Repr

/-- Helper `getType` of `analyzeSchema`. -/
def getType : Json → JType
  | .null => .null
  | .arr _ => .array
  | .obj _ => .object
  | .str _ => .string
  | .num _ => .number
  | .bool _ => .boolean

/-- One node of the inferred schema tree (`FieldNode`); optional fields of
the TS interface are `Option`s, and `isArray` is renamed `isArrayF`. -/
inductive FieldNode where
  | mk (name : String) (path : String) (type : JType)
      (children : Option (List FieldNode)) (isArrayF : Option Bool)
      (arrayItemType : Option JType)

/-- The `children` field of a node. -/
def FieldNode.children : FieldNode → Option (List FieldNode)
  | .mk _ _ _ c _ _ => c

mutual
/-- Function `analyzeValue` and its traversals of object entries and of the index
keys `Object.keys` yields for an array-valued first element.  The result
triple is the constructed node (if the depth bound admits one), the number
of `totalFields` increments performed, and the largest `depth` value
recorded into `maxDepthReached` (zero when nothing was visited). -/
def analyzeValue (maxDepth : Nat) (value : Json) (name path : String) (depth : Nat) :
    Option FieldNode × Nat × Nat :=
  if maxDepth < depth then (none, 0, 0)
  else
    let t := getType value
    match value with
    | .arr [] => (some (.mk name path t none (some true) none), 1, depth)
    | .arr (firstItem :: _) =>
      let ait := getType firstItem
      match firstItem with
      | .obj entries =>
        let r := analyzeEntries maxDepth entries (path ++ "[*].") (depth + 1)
        (some (.mk name path t (some r.1) (some true) (some ait)), 1 + r.2.1, max depth r.2.2)
      | .arr inner =>
        let r := analyzeItems maxDepth inner 0 (path ++ "[*].") (depth + 1)
        (some (.mk name path t (some r.1) (some true) (some ait)), 1 + r.2.1, max depth r.2.2)
      | _ => (some (.mk name path t none (some true) (some ait)), 1, depth)
    | .obj entries =>
      let r := analyzeEntries maxDepth entries (if path = "" then "" else path ++ ".") (depth + 1)
      (some (.mk name path t (some r.1) none none), 1 + r.2.1, max depth r.2.2)
    | _ => (some (.mk name path t none none none), 1, depth)

def analyzeEntries (maxDepth : Nat) (entries : List (String × Json)) (pfx : String) (depth : Nat) :
    List FieldNode × Nat × Nat :=
  match entries with
  | [] => ([], 0, 0)
  | (k, v) :: rest =>
    let r1 := analyzeValue maxDepth v k (pfx ++ k) depth
    let r2 := analyzeEntries maxDepth rest pfx depth
    ((match r1.1 with | some n => n :: r2.1 | none => r2.1),
      r1.2.1 + r2.2.1, max r1.2.2 r2.2.2)

def analyzeItems (maxDepth : Nat) (items : List Json) (idx : Nat) (pfx : String) (depth : Nat) :
    List FieldNode × Nat × Nat :=
  match items with
  | [] => ([], 0, 0)
  | v :: rest =>
    let r1 := analyzeValue maxDepth v (natToStr idx) (pfx ++ natToStr idx) depth
    let r2 := analyzeItems maxDepth rest (idx + 1) pfx depth
    ((match r1.1 with | some n => n :: r2.1 | none => r2.1),
      r1.2.1 + r2.2.1, max r1.2.2 r2.2.2)
end

/-- The `SchemaAnalysis` record. -/
structure SchemaAnalysis where
  fields : List FieldNode
  depth : Nat
  totalFields : Nat

/-- Function `analyzeSchema`: a root array is analyzed through a virtual `root`
node whose children become the top-level fields; a root object analyzes
each own key at depth zero with path `$.key`; any other root yields an
empty analysis. -/
def analyzeSchema (data : Json) (maxDepth : Nat) : SchemaAnalysis :=
  match data with
  | .arr _ =>
    let r := analyzeValue maxDepth data "root" "$" 0
    let fields := match r.1 with
      | some n => (FieldNode.children n).getD []
      | none => []
    ⟨fields, r.2.2, r.2.1⟩
  | .obj entries =>
    let r := analyzeEntries maxDepth entries "$." 0
    ⟨r.1, r.2.2, r.2.1⟩
  | _ => ⟨[], 0, 0⟩

/-! ### Recursive search (`recursiveSearch` of search-utils) -/

/-- One search hit: the traversal path, the matched value, and the
literal matched text. -/
structure SearchMatch where
  path : List String
  value : Json
  matchedText : String

mutual
/-- The `searchValue` closure of `recursiveSearch`, with its array and
object traversals. -/
def searchValue (caseSensitive : Bool) (searchNormalized : List Char)
    (value : Json) (path : List String) : List SearchMatch :=
  match value with
  | .arr items => searchItems caseSensitive searchNormalized items 0 path
  | .obj entries => searchEntries caseSensitive searchNormalized entries path
  | v =>
    let stringValue := jsToString v
    let compareValue := if caseSensitive then stringValue.toList
                        else stringValue.toList.map Char.toLower
    if containsSub compareValue searchNormalized then [⟨path, v, stringValue⟩] else []

def searchItems (caseSensitive : Bool) (searchNormalized : List Char)
    (items : List Json) (idx : Nat) (path : List String) : List SearchMatch :=
  match items with
  | [] => []
  | v :: rest =>
    searchValue caseSensitive searchNormalized v (path ++ ["[" ++ natToStr idx ++ "]"]) ++
      searchItems caseSensitive searchNormalized rest (idx + 1) path

def searchEntries (caseSensitive : Bool) (searchNormalized : List Char)
    (entries : List (String × Json)) (path : List String) : List SearchMatch :=
  match entries with
  | [] => []
  | (k, v) :: rest =>
    let keyCompare := if caseSensitive then k.toList else k.toList.map Char.toLower
    (if containsSub keyCompare searchNormalized then [⟨path ++ [k], v, k⟩] else []) ++
      searchValue caseSensitive searchNormalized v (path ++ [k]) ++
      searchEntries caseSensitive searchNormalized rest path
end

/-- Function `recursiveSearch` of search-utils. -/
def recursiveSearch (data : Json) (searchTerm : String) (caseSensitive : Bool)
    (currentPath : List String) : List SearchMatch :=
  if searchTerm = "" then []
  else
    let searchNormalized := if caseSensitive then searchTerm else lowerStr searchTerm
    searchValue caseSensitive searchNormalized.toList data currentPath

/-! ### Highlighting (`highlightText` of search-utils) -/

/-- One output segment of `highlightText`. -/
structure HighlightSegment where
  text : String
  isMatch : Bool

/-- The scanning loop of `highlightText`.  `fuel` dominates the number of
iterations (the wrapper passes `text.length + 1`, enough for every input);
on exhaustion or when no further occurrence exists the remaining text is
emitted as one non-match segment, exactly as the loop epilogue does. -/
def highlightLoop (text textNorm termNorm : List Char) (termLen : Nat) :
    Nat → Nat → List HighlightSegment
  | 0, lastIndex =>
    if lastIndex < text.length then [⟨⟨text.drop lastIndex⟩, false⟩] else []
  | fuel + 1, lastIndex =>
    match indexOfFrom textNorm termNorm lastIndex with
    | none =>
      if lastIndex < text.length then [⟨⟨text.drop lastIndex⟩, false⟩] else []
    | some index =>
      (if lastIndex < index then [⟨⟨(text.drop lastIndex).take (index - lastIndex)⟩, false⟩] else []) ++
        ⟨⟨(text.drop index).take termLen⟩, true⟩ ::
          highlightLoop text textNorm termNorm termLen fuel (index + termLen)

/-- Function `highlightText` of search-utils. -/
def highlightText (text searchTerm : String) (caseSensitive : Bool) : List HighlightSegment :=
  if searchTerm = "" ∨ text = "" then [⟨text, false⟩]
  else
    let searchNormalized := if caseSensitive then searchTerm else lowerStr searchTerm
    let textNormalized := if caseSensitive then text else lowerStr text
    highlightLoop text.toList textNormalized.toList searchNormalized.toList
      searchTerm.length (text.length + 1) 0

/-- In-order concatenation of the text fields of a segment list. -/
def concatSegs : List HighlightSegment → String
  | [] => ""
  | seg :: rest => seg.text ++ concatSegs rest

/-! ### CSV flattener (`flattenObject`, `escapeCsvValue`, `jsonToCsv`) -/

/-- The flattened-record key used for a row: the accumulated dot path, or
the literal `value` at the top level. -/
def keyOrValue (pfx : String) : String := if pfx = "" then "value" else pfx

/-- Property assignment on a JS object modeled as an ordered association
list: an existing key is overwritten in place, a new key is appended. -/
def recInsert (m : List (String × Json)) (k : String) (v : Json) : List (String × Json) :=
  if m.any (fun p => p.1 == k) then m.map (fun p => if p.1 == k then (k, v) else p)
  else m ++ [(k, v)]

mutual
/-- Function `flattenObject` of csv-utils: depth-exceeded subtrees and
arrays are stringified whole, null and primitives terminate a branch
as-is, and plain objects recurse with dot-joined keys. -/
def flattenObject (obj : Json) (pfx : String) (maxDepth : Nat) (currentDepth : Nat) :
    List (String × Json) :=
  if maxDepth ≤ currentDepth then [(keyOrValue pfx, .str (jsonStringify obj))]
  else
    match obj with
    | .null => [(keyOrValue pfx, .null)]
    | .arr _ => [(keyOrValue pfx, .str (jsonStringify obj))]
    | .obj entries => flattenEntries entries pfx maxDepth currentDepth []
    | prim => [(keyOrValue pfx, prim)]

/-- Loop of `flattenObject` over `Object.entries`, with the accumulated
flattened record threaded through `Object.assign`-style insertion. -/
def flattenEntries (entries : List (String × Json)) (pfx : String)
    (maxDepth currentDepth : Nat) (acc : List (String × Json)) : List (String × Json) :=
  match entries with
  | [] => acc
  | (k, v) :: rest =>
    let newKey := if pfx = "" then k else pfx ++ "." ++ k
    let acc2 :=
      match v with
      | .null => recInsert acc newKey .null
      | .obj _ => (flattenObject v newKey maxDepth (currentDepth + 1)).foldl
          (fun a p => recInsert a p.1 p.2) acc
      | .arr _ => recInsert acc newKey (.str (jsonStringify v))
      | prim => recInsert acc newKey prim
    flattenEntries rest pfx maxDepth currentDepth acc2
end

/-- Quoting rule of `escapeCsvValue`: a cell is quoted exactly when it
holds a comma, a newline, a carriage return or a double quote, with inner
double quotes doubled. -/
def escString (s : String) : String :=
  let needsQuotes := s.toList.any (fun c => c = ',' || c = '\n' || c = '\r' || c = '"')
  if needsQuotes then
    "\"" ++ ⟨s.toList.foldr (fun c acc => if c = '"' then '"' :: '"' :: acc else c :: acc) []⟩ ++ "\""
  else s

/-- Function `escapeCsvValue` of csv-utils: null (and the absent value)
renders as the empty cell, anything else as its escaped `String(·)` form. -/
def escapeCsvValue : Json → String
  | .null => ""
  | v => escString (jsToString v)

/-- Lookup `row[key]` on a flattened record; `none` is JS `undefined`. -/
def rowLookup (row : List (String × Json)) (k : String) : Option Json :=
  (row.find? (fun p => p.1 == k)).map (fun p => p.2)

/-- One emitted cell: a missing key renders as the empty string. -/
def csvCell (row : List (String × Json)) (k : String) : String :=
  match rowLookup row k with
  | none => ""
  | some v => escapeCsvValue v

/-- The `CsvExportOptions` used by `jsonToCsv` (download-only options are
orchestration and are not modeled). -/
structure CsvExportOptions where
  maxDepth : Nat := 5
  includeRowNumbers : Bool := true

/-- Insertion of one string into a run sorted by the UTF code-unit order
that `Array.prototype.sort` applies to strings. -/
def charListLe : List Char → List Char → Bool
  | [], _ => true
  | _ :: _, [] => false
  | a :: as, b :: bs =>
    if a.toNat < b.toNat then true
    else if b.toNat < a.toNat then false
    else charListLe as bs

/-- Lexicographic string order by character code. -/
def strLe (a b : String) : Bool := charListLe a.toList b.toList

/-- Sorted insertion for `insertionSort`. -/
def insertSorted (x : String) : List String → List String
  | [] => [x]
  | y :: ys => if strLe x y then x :: y :: ys else y :: insertSorted x ys

/-- Model of `Array.from(allKeys).sort()` on the collected key set. -/
def insertionSort : List String → List String
  | [] => []
  | x :: xs => insertSorted x (insertionSort xs)

/-- Collection of every distinct flattened key across all rows, in first
appearance order (the JS `Set` insertion order). -/
def collectKeys (rows : List (List (String × Json))) : List String :=
  rows.foldl (fun acc row => row.foldl
    (fun a p => if a.contains p.1 then a else a ++ [p.1]) acc) []

/-- All rows flattened, as `jsonToCsv` computes them. -/
def csvFlattenedRows (data : List Json) (maxDepth : Nat) : List (List (String × Json)) :=
  data.map (fun item => flattenObject item "" maxDepth 0)

/-- The sorted column set of the export. -/
def csvSortedKeys (data : List Json) (maxDepth : Nat) : List String :=
  insertionSort (collectKeys (csvFlattenedRows data maxDepth))

/-- Data lines of the export, with the 1-based row-number column when
requested and one cell per sorted key. -/
def csvLinesAux (sortedKeys : List String) (includeRowNumbers : Bool) :
    Nat → List (List (String × Json)) → List String
  | _, [] => []
  | index, row :: rest =>
    String.intercalate ","
        ((if includeRowNumbers then [natToStr (index + 1)] else []) ++
          sortedKeys.map (csvCell row)) ::
      csvLinesAux sortedKeys includeRowNumbers (index + 1) rest

/-- Function `jsonToCsv` of csv-utils. -/
def jsonToCsv (data : List Json) (options : CsvExportOptions) : String :=
  match data with
  | [] => if options.includeRowNumbers then "#\n" else ""
  | _ =>
    let flattenedRows := csvFlattenedRows data options.maxDepth
    let sortedKeys := csvSortedKeys data options.maxDepth
    let headers := (if options.includeRowNumbers then ["#"] else []) ++ sortedKeys
    String.intercalate "\n"
      (String.intercalate "," (headers.map escString) ::
        csvLinesAux sortedKeys options.includeRowNumbers 0 flattenedRows)

/-! ### Performance analytics (analytics-utils and the metrics hook) -/

/-- The `QueryMetrics` record; `executionTime` and `complexityScore` are
rationals standing for JS numbers. -/
structure QueryMetrics where
  id : String
  query : String
  executionTime : Rat
  resultCount : Int
  timestamp : Int
  complexityScore : Rat
  memoryUsage : Option Rat := none
deriving DecidableEq, Repr

/-- Model of `Math.round`: half-way values round toward positive infinity. -/
def jsRound (x : Rat) : Int := ⌊x + 1 / 2⌋

/-- Rounding to two decimals, as `Math.round(x * 100) / 100`. -/
def jsRound2 (x : Rat) : Rat := (jsRound (x * 100) : Rat) / 100

/-- Count of non-overlapping occurrences of `pat`, scanning left to right
as a global regex over a literal pattern does. -/
def countPat : List Char → List Char → Nat
  | [], _ => 0
  | c :: rest, pat =>
    if h : pat ≠ [] ∧ pat.isPrefixOf (c :: rest) then
      1 + countPat ((c :: rest).drop pat.length) pat
    else countPat rest pat
termination_by text _ => text.length
decreasing_by
  · simp only [List.length_drop]
    have : pat.length ≠ 0 := by
      intro h0
      exact h.1 (List.length_eq_zero.mp h0)
    simp only [List.length_cons]
    omega
  · simp only [List.length_cons]
    omega

/-- Digit-run skipper used by the slice-pattern matcher (the greedy `\d*`). -/
def skipDigits : List Char → List Char
  | [] => []
  | c :: rest => if isDigitChar c then skipDigits rest else c :: rest

/-- Skipping digits never lengthens a list. -/
theorem skipDigits_length_le : ∀ l : List Char, (skipDigits l).length ≤ l.length := by
  intro l
  induction l with
  | nil => simp [skipDigits]
  | cons c rest ih =>
    simp only [skipDigits]
    split
    · simp only [List.length_cons]
      omega
    · simp

/-- Closing-bracket step of the slice-pattern matcher. -/
def expectClose : List Char → Option (List Char)
  | [] => none
  | c :: rest => if c = ']' then some rest else none

/-- Tail of the slice pattern after the second digit run: either the
closing bracket, or an optional colon, digits and the closing bracket. -/
def sliceAfterColon2 : List Char → Option (List Char)
  | [] => none
  | c :: r =>
    if c = ']' then some r
    else if c = ':' then expectClose (skipDigits r)
    else none

/-- Matcher for the slice regex `\[\d*:\d*:?\d*\]` anchored at the head of
the text, returning the rest of the text after the match. -/
def sliceMatchRest : List Char → Option (List Char)
  | [] => none
  | c :: r =>
    if c = '[' then
      match skipDigits r with
      | [] => none
      | c2 :: r2 => if c2 = ':' then sliceAfterColon2 (skipDigits r2) else none
    else none

/-- Result-length bound for `expectClose`. -/
theorem expectClose_length (l rest : List Char) (h : expectClose l = some rest) :
    rest.length < l.length := by
  match l with
  | [] => simp [expectClose] at h
  | c :: r =>
    simp only [expectClose] at h
    split at h
    · cases h
      simp
    · cases h

/-- Result-length bound for `sliceAfterColon2`. -/
theorem sliceAfterColon2_length (l rest : List Char) (h : sliceAfterColon2 l = some rest) :
    rest.length < l.length := by
  match l with
  | [] => simp [sliceAfterColon2] at h
  | c :: r =>
    simp only [sliceAfterColon2] at h
    split at h
    · cases h
      simp
    · split at h
      · have h1 := expectClose_length _ _ h
        have h2 := skipDigits_length_le r
        simp only [List.length_cons]
        omega
      · cases h

/-- Shortening lemma for the slice matcher, used for termination. -/
theorem sliceMatchRest_length (cs rest : List Char) (h : sliceMatchRest cs = some rest) :
    rest.length < cs.length := by
  match cs with
  | [] => simp [sliceMatchRest] at h
  | c :: r =>
    simp only [sliceMatchRest] at h
    split at h
    · have hs := skipDigits_length_le r
      split at h
      · cases h
      · split at h
        · rename_i c2 r2 heq _
          have h1 := sliceAfterColon2_length _ _ h
          have h2 := skipDigits_length_le r2
          have h3 : r2.length < r.length := by
            have := congrArg List.length heq
            simp only [List.length_cons] at this
            omega
          simp only [List.length_cons]
          omega
        · cases h
    · cases h

/-- Count of matches of the slice regex, scanning left to right and
resuming after each match as a global regex does. -/
def countSliceMatches : List Char → Nat
  | [] => 0
  | c :: rest =>
    match h : sliceMatchRest (c :: rest) with
    | some r => 1 + countSliceMatches r
    | none => countSliceMatches rest
termination_by cs => cs.length
decreasing_by
  · exact sliceMatchRest_length _ _ h
  · simp only [List.length_cons]
    omega

/-- Function `calculateComplexityScore` of analytics-utils: the weighted
token heuristic, rounded to one decimal. -/
def calculateComplexityScore (query : String) : Rat :=
  let cs := query.toList
  let score : Rat :=
    1 + 3 * (countPat cs ['?', '('] : Rat)
      + (if containsSub cs ['.', '.'] then 2 else 0)
      + 2 * (countSliceMatches cs : Rat)
      + 3 / 2 * (cs.count '*' : Rat)
      + (cs.count ',' : Rat)
      + 2 * (countPat cs ['(', ')'] : Rat)
      + (cs.length : Rat) / 10
  (jsRound (score * 10) : Rat) / 10

/-- Function `addMetric` of the analytics hook.  The generated id and the
`Date.now()` stamp are impure inputs and appear as parameters.  Blank
queries and negative times or counts are rejected as a no-op; otherwise
the new sample is prepended and the list truncated to 100 entries. -/
def addMetric (prevMetrics : List QueryMetrics) (query : String) (executionTime : Rat)
    (resultCount : Int) (newId : String) (now : Int) : List QueryMetrics :=
  if jsTrim query = "" ∨ executionTime < 0 ∨ resultCount < 0 then prevMetrics
  else
    let newMetric : QueryMetrics :=
      { id := newId, query := query, executionTime := jsRound2 executionTime,
        resultCount := resultCount, timestamp := now,
        complexityScore := calculateComplexityScore query, memoryUsage := none }
    (newMetric :: prevMetrics).take 100

/-- One ingestion request of the analytics hook, bundling the sample data
with the impure id and timestamp inputs. -/
structure MetricSample where
  query : String
  executionTime : Rat
  resultCount : Int
  id : String
  timestamp : Int
deriving DecidableEq, Repr

/-- Ingestion of one sample into the ring. -/
def applyMetricSample (st : List QueryMetrics) (s : MetricSample) : List QueryMetrics :=
  addMetric st s.query s.executionTime s.resultCount s.id s.timestamp

/-! ### Distribution histogram (`calculateDistribution`) -/

/-- The `PerformanceDistribution` record. -/
structure PerformanceDistribution where
  range : String
  count : Nat
  percentage : Int
deriving DecidableEq, Repr, Inhabited

/-- Model of `Math.max(...l)` for a non-empty spread. -/
def listMax : List Rat → Rat
  | [] => 0
  | t :: ts => ts.foldl max t

/-- Model of `Math.min(...l)` for a non-empty spread. -/
def listMin : List Rat → Rat
  | [] => 0
  | t :: ts => ts.foldl min t

/-- Rendering of a non-negative rational with one decimal digit. -/
def ratToFixed1Nat (x : Rat) : String :=
  let n := (⌊x * 10 + 1 / 2⌋).toNat
  natToStr (n / 10) ++ "." ++ natToStr (n % 10)

/-- Model of `Number.prototype.toFixed(1)`. -/
def ratToFixed1 (x : Rat) : String :=
  if x < 0 then "-" ++ ratToFixed1Nat (-x) else ratToFixed1Nat x

/-- Function `calculateDistribution` of analytics-utils: ten equal bins
over the execution-time span, the last bin closed on the right, with a
formatted label and a rounded percentage per bin. -/
def calculateDistribution (metrics : List QueryMetrics) : List PerformanceDistribution :=
  match metrics with
  | [] => []
  | _ =>
    let times := metrics.map (fun m => m.executionTime)
    let maxT := listMax times
    let minT := listMin times
    let binSize0 := (maxT - minT) / 10
    let binSize := if binSize0 = 0 then 1 else binSize0
    (List.range 10).map (fun (i : Nat) =>
      let rangeStart := minT + (i : Rat) * binSize
      let rangeEnd := minT + ((i : Rat) + 1) * binSize
      let count := (times.filter (fun t =>
        rangeStart ≤ t ∧ (if i = 9 then t ≤ rangeEnd else t < rangeEnd))).length
      { range := ratToFixed1 rangeStart ++ "-" ++ ratToFixed1 rangeEnd ++ "ms",
        count := count,
        percentage := jsRound ((count : Rat) / (metrics.length : Rat) * 100) })

/-! ### Shared helper lemmas -/

/-- Folding string append from any seed equals the seed prepended to the
fold from the empty string. -/
theorem stringFoldlShift (l : List String) : ∀ a : String,
    l.foldl (fun r s => r ++ s) a = a ++ l.foldl (fun r s => r ++ s) "" := by
  induction l with
  | nil => intro a; simp
  | cons x xs ih =>
    intro a
    simp only [List.foldl_cons]
    rw [ih (a ++ x), ih (("" : String) ++ x)]
    simp [String.append_assoc]

/-- Unfolding of `String.join` on a cons. -/
theorem stringJoinCons (s : String) (l : List String) :
    String.join (s :: l) = s ++ String.join l := by
  simp only [String.join, List.foldl_cons]
  rw [stringFoldlShift l (("" : String) ++ s)]
  simp

/-- Accumulated digits only grow under `natToStrAux`. -/
theorem natToStrAux_length_le : ∀ (fuel n : Nat) (acc : List Char),
    acc.length ≤ (natToStrAux fuel n acc).length := by
  intro fuel
  induction fuel with
  | zero =>
    intro n acc
    cases n <;> simp [natToStrAux]
  | succ fuel ih =>
    intro n acc
    cases n with
    | zero => simp [natToStrAux]
    | succ m =>
      have h := ih ((m + 1) / 10) (Char.ofNat (48 + (m + 1) % 10) :: acc)
      calc acc.length ≤ (Char.ofNat (48 + (m + 1) % 10) :: acc).length := by simp
        _ ≤ _ := h
        _ = (natToStrAux (fuel + 1) (m + 1) acc).length := rfl

/-- Decimal renderings of naturals are never empty. -/
theorem natToStr_ne_empty (n : Nat) : natToStr n ≠ "" := by
  unfold natToStr
  split
  · decide
  · rename_i hn
    intro h
    have hd := congrArg String.data h
    cases n with
    | zero => exact hn rfl
    | succ m =>
      have h1 : natToStrAux (m + 1) (m + 1) [] =
          natToStrAux m ((m + 1) / 10) [Char.ofNat (48 + (m + 1) % 10)] := rfl
      have h2 := natToStrAux_length_le m ((m + 1) / 10) [Char.ofNat (48 + (m + 1) % 10)]
      rw [h1] at hd
      simp at hd
      rw [hd] at h2
      simp at h2

/-- Decimal renderings of integers are never empty. -/
theorem intToStr_ne_empty (n : Int) : intToStr n ≠ "" := by
  unfold intToStr
  split
  · intro h
    have hd := congrArg String.data h
    simp [String.data] at hd
  · exact natToStr_ne_empty _

/-! ### Claim C1 -/

/-- Shifted fragments: past index zero every condition gets its
logical-operator separator. -/
theorem filterFragments_shift (fs : List FilterCondition) : ∀ i : Nat,
    filterFragments (i + 1) fs =
      fs.map (fun g => logicalSep g.logicalOperator ++ conditionFor g) := by
  induction fs with
  | nil => intro i; rfl
  | cons g gs ih =>
    intro i
    simp only [filterFragments, List.map_cons]
    rw [if_pos (Nat.succ_pos i), ih (i + 1)]

/-- Claim C1: for every non-empty filter list in which every condition
after the first carries a logical operator, the synthesized clause is
`[?(` ++ the in-order fragment concatenation ++ `)]`, with values bare
when numeric and single-quoted otherwise, the operator table of the
source, and the stored `AND`/`OR` separators prefixed to every condition
except the first. -/
theorem claim_C1_generateFilterExpression (f : FilterCondition) (fs : List FilterCondition)
    (h : ∀ g ∈ fs, g.logicalOperator ≠ none) :
    generateFilterExpression (f :: fs) =
      "[?(" ++ (conditionFor f ++
        String.join (fs.map (fun g => logicalSep g.logicalOperator ++ conditionFor g))) ++ ")]" := by
  have h0 : generateFilterExpression (f :: fs) =
      "[?(" ++ String.join (filterFragments 0 (f :: fs)) ++ ")]" := rfl
  rw [h0]
  simp only [filterFragments]
  rw [if_neg (by omega), filterFragments_shift fs 0, stringJoinCons]
  rfl

/-- Witness for C1: the two-condition AND example of the specification. -/
theorem claim_C1_witness :
    generateFilterExpression
        [⟨"1", "brand", .opEq, "Toyota", none⟩, ⟨"2", "year", .opGt, "2015", some .AND⟩] =
      "[?(@.brand == " ++ squote ++ "Toyota" ++ squote ++ " && @.year > 2015)]" := by
  rw [claim_C1_generateFilterExpression _ _ (by decide)]
  decide

/-! ### Claim C5 -/

/-- Rendering of an optional slice bound: absent bounds render empty. -/
def renderBound : Option Int → String
  | some n => intToStr n
  | none => ""

/-- Counterexample to C5 as stated: a present step of `0` does not render
`[start:end:step]`; the JS truthiness test on `step` drops it. -/
theorem claim_C5_counterexample :
    generateArraySlice ⟨some 1, some 2, some 0⟩ = "[1:2]" ∧
    generateArraySlice ⟨some 1, some 2, some 0⟩ ≠ "[1:2:0]" := by
  constructor
  · decide
  · decide

/-- Claim C5 (amended): `[start:end:step]` is produced exactly when a
non-zero step is present (a step of `0` is falsy and treated as absent);
otherwise `[start:end]` when at least one bound is present, else `[*]`;
absent bounds render as the empty string. -/
theorem claim_C5_generateArraySlice (s : ArraySlice) :
    (∀ st : Int, s.step = some st → st ≠ 0 →
      generateArraySlice s =
        "[" ++ renderBound s.start ++ ":" ++ renderBound s.endVal ++ ":" ++ intToStr st ++ "]") ∧
    ((s.step = none ∨ s.step = some 0) →
      ((s.start ≠ none ∨ s.endVal ≠ none) →
        generateArraySlice s = "[" ++ renderBound s.start ++ ":" ++ renderBound s.endVal ++ "]") ∧
      (s.start = none → s.endVal = none → generateArraySlice s = "[*]")) := by
  obtain ⟨st0, en0, sp0⟩ := s
  constructor
  · intro st hsp hst
    simp only at hsp
    subst hsp
    cases st0 <;> cases en0 <;> simp [generateArraySlice, renderBound, hst]
  · intro hsp
    constructor
    · intro hbound
      rcases hsp with h | h <;> simp only at h <;> subst h <;>
        cases st0 <;> cases en0 <;>
          simp_all [generateArraySlice, renderBound, intToStr_ne_empty]
    · intro hs he
      simp only at hs he
      subst hs
      subst he
      rcases hsp with h | h <;> simp only at h <;> subst h <;>
        simp [generateArraySlice]

/-- Witness for the amended C5 at three concrete slices. -/
theorem claim_C5_witness :
    generateArraySlice ⟨some 0, none, some 2⟩ =
      "[" ++ renderBound (some 0) ++ ":" ++ renderBound none ++ ":" ++ intToStr 2 ++ "]" ∧
    generateArraySlice ⟨none, none, none⟩ = "[*]" ∧
    generateArraySlice ⟨none, some 3, none⟩ =
      "[" ++ renderBound none ++ ":" ++ renderBound (some 3) ++ "]" :=
  ⟨(claim_C5_generateArraySlice _).1 2 rfl (by decide),
    ((claim_C5_generateArraySlice _).2 (Or.inl rfl)).2 rfl rfl,
    ((claim_C5_generateArraySlice _).2 (Or.inl rfl)).1 (Or.inr (by decide))⟩

/-! ### Claim C8 -/

/-- Claim C8: `analyzeSchema`, `buildJsonPathQuery`, `jsonToCsv` and
`recursiveSearch` are deterministic pure functions; two invocations on
identical inputs yield identical outputs.  In this shallow embedding the
four operations are Lean functions of their inputs alone, so determinism
is definitional. -/
theorem claim_C8_determinism :
    (∀ (v : Json) (maxDepth : Nat), analyzeSchema v maxDepth = analyzeSchema v maxDepth) ∧
    (∀ (rootPath : String) (selectedPath : List String) (filters : List FilterCondition)
      (arraySlice : Option ArraySlice) (recursiveDescent : Bool),
      buildJsonPathQuery rootPath selectedPath filters arraySlice recursiveDescent =
        buildJsonPathQuery rootPath selectedPath filters arraySlice recursiveDescent) ∧
    (∀ (data : List Json) (options : CsvExportOptions),
      jsonToCsv data options = jsonToCsv data options) ∧
    (∀ (data : Json) (searchTerm : String) (caseSensitive : Bool) (currentPath : List String),
      recursiveSearch data searchTerm caseSensitive currentPath =
        recursiveSearch data searchTerm caseSensitive currentPath) :=
  ⟨fun _ _ => rfl, fun _ _ _ _ _ => rfl, fun _ _ => rfl, fun _ _ _ _ => rfl⟩

/-! ### Claim C10 -/

/-- Rows that are not plain objects. -/
def notPlainObject : Json → Bool
  | .obj _ => false
  | _ => true

/-- Primitive or null rows. -/
def isPrimitiveOrNull : Json → Bool
  | .null => true
  | .bool _ => true
  | .num _ => true
  | .str _ => true
  | _ => false

/-- Array rows. -/
def isArrayJson : Json → Bool
  | .arr _ => true
  | _ => false

/-- Claim C10: flattening a top-level row that is not a plain object
yields exactly one column named `value`; within the depth bound the cell
holds a primitive or null as-is and an array JSON-stringified, and a
depth bound of zero stringifies the row whole. -/
theorem claim_C10_flattenObject (v : Json) (maxDepth : Nat) (h : notPlainObject v = true) :
    ((flattenObject v "" maxDepth 0).map Prod.fst = ["value"]) ∧
    (0 < maxDepth → isPrimitiveOrNull v = true → flattenObject v "" maxDepth 0 = [("value", v)]) ∧
    (0 < maxDepth → isArrayJson v = true →
      flattenObject v "" maxDepth 0 = [("value", .str (jsonStringify v))]) ∧
    (maxDepth = 0 → flattenObject v "" maxDepth 0 = [("value", .str (jsonStringify v))]) := by
  rcases Nat.eq_zero_or_pos maxDepth with h0 | hpos
  · subst h0
    cases v <;> simp_all [flattenObject, keyOrValue, notPlainObject, isPrimitiveOrNull, isArrayJson]
  · have hno : ¬ (maxDepth ≤ 0) := by omega
    cases v <;>
      simp_all [flattenObject, keyOrValue, notPlainObject, isPrimitiveOrNull, isArrayJson]

/-- Witness for C10: a bare number flattens to the single `value` column,
and a list of bare numbers exports with the single data header `value`. -/
theorem claim_C10_witness :
    flattenObject (.num 7) "" 5 0 = [("value", .num 7)] ∧
    jsonToCsv [.num 1, .num 2] ⟨5, false⟩ = "value\n1\n2" :=
  ⟨(claim_C10_flattenObject (.num 7) 5 (by decide)).2.1 (by decide) (by decide), by decide⟩

/-! ### Claim C2 -/

/-- Single ingestions keep the ring within the cap. -/
theorem addMetric_length_le (prev : List QueryMetrics) (query : String) (t : Rat)
    (c : Int) (newId : String) (now : Int) (h : prev.length ≤ 100) :
    (addMetric prev query t c newId now).length ≤ 100 := by
  unfold addMetric
  split
  · exact h
  · simp only [List.length_take, List.length_cons]
    omega

/-- Claim C2: invalid samples (blank query or negative time or count) are
a no-op on the metrics ring; valid samples are prepended newest-first and
the ring truncated to 100; and any sequence of ingestions starting from a
ring within the cap stays within the cap. -/
theorem claim_C2_addMetric (prev : List QueryMetrics) (query : String) (t : Rat)
    (c : Int) (newId : String) (now : Int) :
    (jsTrim query = "" ∨ t < 0 ∨ c < 0 → addMetric prev query t c newId now = prev) ∧
    (jsTrim query ≠ "" → 0 ≤ t → 0 ≤ c →
      addMetric prev query t c newId now =
        ({ id := newId, query := query, executionTime := jsRound2 t, resultCount := c,
           timestamp := now, complexityScore := calculateComplexityScore query,
           memoryUsage := none } :: prev).take 100) ∧
    (prev.length ≤ 100 → (addMetric prev query t c newId now).length ≤ 100) ∧
    (∀ samples : List MetricSample, prev.length ≤ 100 →
      (samples.foldl applyMetricSample prev).length ≤ 100) := by
  refine ⟨?_, ?_, addMetric_length_le prev query t c newId now, ?_⟩
  · intro h
    unfold addMetric
    rw [if_pos h]
  · intro h1 h2 h3
    unfold addMetric
    rw [if_neg]
    push_neg
    exact ⟨h1, h2, h3⟩
  · intro samples
    induction samples generalizing prev with
    | nil => intro h; simpa using h
    | cons s rest ih =>
      intro h
      simp only [List.foldl_cons]
      exact ih _ (addMetric_length_le _ _ _ _ _ _ h)

/-- Witness for C2: a blank query is rejected, a valid sample is stored
prepended and truncated, and a one-sample sequence respects the cap. -/
theorem claim_C2_witness :
    addMetric [] "   " 1 2 "id1" 5 = [] ∧
    addMetric [] "$.store" 1 2 "id1" 5 =
      ({ id := "id1", query := "$.store", executionTime := jsRound2 1, resultCount := 2,
         timestamp := 5, complexityScore := calculateComplexityScore "$.store",
         memoryUsage := none } :: []).take 100 ∧
    (([⟨"$.a", 1, 3, "i", 0⟩] : List MetricSample).foldl applyMetricSample []).length ≤ 100 :=
  ⟨(claim_C2_addMetric [] "   " 1 2 "id1" 5).1 (Or.inl (by decide)),
    (claim_C2_addMetric [] "$.store" 1 2 "id1" 5).2.1 (by decide) (by decide) (by decide),
    (claim_C2_addMetric [] "x" 0 0 "x" 0).2.2.2 [⟨"$.a", 1, 3, "i", 0⟩] (by decide)⟩

/-! ### Claim C4 -/

/-- Per-character depth change of the validator scan. -/
def charDelta (c : Char) : Int :=
  if c = '[' ∨ c = '(' then 1 else if c = ']' ∨ c = ')' then -1 else 0

/-- Running balance after a character sequence: opens minus closes, as
the claim counts them. -/
def balanceAt (cs : List Char) : Int :=
  ((cs.countP (fun c => c = '[' || c = '(') : Int)) -
    ((cs.countP (fun c => c = ']' || c = ')') : Int))

/-- Specification-side validator, written from the words of the claim:
reject the empty string and missing `$`/`@` prefix, then demand that
every prefix balance is non-negative and the final balance is zero. -/
def isValidQuerySpec (query : String) : Bool :=
  if query = "" then false
  else if !(jsStartsWith query "$" || jsStartsWith query "@") then false
  else
    let cs := query.toList
    ((List.range (cs.length + 1)).all (fun k => decide (0 ≤ balanceAt (cs.take k)))) &&
      (balanceAt cs == 0)

/-- Unfolding of the scan step through `charDelta`. -/
theorem bracketScan_cons (c : Char) (rest : List Char) (depth : Int) :
    bracketScan (c :: rest) depth =
      (if depth + charDelta c < 0 then false else bracketScan rest (depth + charDelta c)) := by
  simp only [bracketScan, charDelta]
  by_cases h1 : c = '[' ∨ c = '('
  · simp [h1]
  · by_cases h2 : c = ']' ∨ c = ')'
    · simp only [h1, h2, if_false, if_true]
      rw [show depth + (-1 : Int) = depth - 1 by ring]
    · simp [h1, h2]

/-- Balance of a cons through `charDelta`. -/
theorem balanceAt_cons (c : Char) (cs : List Char) :
    balanceAt (c :: cs) = charDelta c + balanceAt cs := by
  unfold balanceAt charDelta
  simp only [List.countP_cons]
  by_cases h1 : c = '[' ∨ c = '('
  · have hc1 : ((c = '[' : Bool) || (c = '(' : Bool)) = true := by
      rcases h1 with h | h <;> simp [h]
    have hc2 : ((c = ']' : Bool) || (c = ')' : Bool)) = false := by
      rcases h1 with h | h <;> subst h <;> decide
    simp only [hc1, hc2, if_true, if_false, h1]
    push_cast
    ring
  · by_cases h2 : c = ']' ∨ c = ')'
    · have hc1 : ((c = '[' : Bool) || (c = '(' : Bool)) = false := by
        rcases h2 with h | h <;> subst h <;> decide
      have hc2 : ((c = ']' : Bool) || (c = ')' : Bool)) = true := by
        rcases h2 with h | h <;> simp [h]
      simp only [hc1, hc2, if_true, if_false, h1, h2]
      push_cast
      ring
    · push_neg at h1 h2
      have hc1 : ((c = '[' : Bool) || (c = '(' : Bool)) = false := by
        simp [h1.1, h1.2]
      have hc2 : ((c = ']' : Bool) || (c = ')' : Bool)) = false := by
        simp [h2.1, h2.2]
      simp only [hc1, hc2, if_false]
      rw [if_neg (show ¬(c = '[' ∨ c = '(') by rintro (h | h); exacts [h1.1 h, h1.2 h]),
        if_neg (show ¬(c = ']' ∨ c = ')') by rintro (h | h); exacts [h2.1 h, h2.2 h])]
      push_cast
      ring

/-- The scan from a non-negative depth succeeds exactly when every prefix
keeps the shifted balance non-negative and the final shifted balance is
zero. -/
theorem bracketScan_iff : ∀ (cs : List Char) (d : Int), 0 ≤ d →
    (bracketScan cs d = true ↔
      ((∀ k, k ≤ cs.length → 0 ≤ d + balanceAt (cs.take k)) ∧ d + balanceAt cs = 0)) := by
  intro cs
  induction cs with
  | nil =>
    intro d hd
    simp only [bracketScan, List.length_nil, List.take_nil]
    constructor
    · intro h
      have : d = 0 := by simpa using h
      subst this
      exact ⟨fun k _ => by simp [balanceAt], by simp [balanceAt]⟩
    · rintro ⟨-, hend⟩
      have hd0 : d = 0 := by
        have : balanceAt ([] : List Char) = 0 := rfl
        omega
      subst hd0
      rfl
  | cons c rest ih =>
    intro d hd
    rw [bracketScan_cons]
    by_cases hneg : d + charDelta c < 0
    · rw [if_pos hneg]
      simp only [Bool.false_eq_true, false_iff]
      rintro ⟨hall, -⟩
      have h1 := hall 1 (by simp)
      rw [List.take_succ_cons, List.take_zero, balanceAt_cons] at h1
      have : balanceAt ([] : List Char) = 0 := rfl
      omega
    · rw [if_neg hneg]
      have hd' : 0 ≤ d + charDelta c := by omega
      rw [ih (d + charDelta c) hd']
      constructor
      · rintro ⟨hall, hend⟩
        refine ⟨?_, ?_⟩
        · intro k hk
          cases k with
          | zero => simpa [balanceAt] using hd
          | succ k' =>
            have := hall k' (by simpa using hk)
            rw [List.take_succ_cons, balanceAt_cons]
            omega
        · rw [balanceAt_cons]
          omega
      · rintro ⟨hall, hend⟩
        refine ⟨?_, ?_⟩
        · intro k hk
          have := hall (k + 1) (by simp; omega)
          rw [List.take_succ_cons, balanceAt_cons] at this
          omega
        · rw [balanceAt_cons] at hend
          omega

/-- The regex extraction step is invisible to the scan: filtering to the
bracket characters leaves the scan result unchanged. -/
theorem bracketScan_filter : ∀ (cs : List Char) (d : Int), 0 ≤ d →
    bracketScan (cs.filter isBracketChar) d = bracketScan cs d := by
  intro cs
  induction cs with
  | nil => intro d _; rfl
  | cons c rest ih =>
    intro d hd
    by_cases hb : isBracketChar c = true
    · rw [List.filter_cons_of_pos hb, bracketScan_cons, bracketScan_cons]
      by_cases hneg : d + charDelta c < 0
      · rw [if_pos hneg, if_pos hneg]
      · rw [if_neg hneg, if_neg hneg]
        exact ih _ (by omega)
    · have hb' : isBracketChar c = false := by
        cases h : isBracketChar c
        · rfl
        · exact absurd h hb
      have hdelta : charDelta c = 0 := by
        unfold isBracketChar at hb'
        simp only [Bool.or_eq_false_iff, decide_eq_false_iff_not] at hb'
        unfold charDelta
        rw [if_neg, if_neg]
        · rintro (h | h) <;> [exact hb'.1.1.2 h; exact hb'.2 h]
        · rintro (h | h) <;> [exact hb'.1.1.1 h; exact hb'.1.2 h]
      rw [List.filter_cons_of_neg (by simp [hb']), bracketScan_cons, hdelta]
      rw [if_neg (by omega)]
      simpa using ih d hd

/-- Claim C4: `isValidJsonPath` agrees with the claim-side validator
everywhere, and takes the claimed values on the five test vectors. -/
theorem claim_C4_isValidJsonPath :
    (∀ query : String, isValidJsonPath query = isValidQuerySpec query) ∧
    isValidJsonPath "" = false ∧
    isValidJsonPath "foo" = false ∧
    isValidJsonPath "$.a[0" = false ∧
    isValidJsonPath "$[0:10]" = true ∧
    isValidJsonPath "$[?(@.x==1)]" = true := by
  refine ⟨?_, by decide, by decide, by decide, by decide, by decide⟩
  intro query
  unfold isValidJsonPath isValidQuerySpec
  by_cases h0 : query = ""
  · simp [h0]
  · rw [if_neg h0, if_neg h0]
    by_cases h1 : (jsStartsWith query "$" || jsStartsWith query "@") = true
    · rw [h1]
      simp only [Bool.not_true, Bool.false_eq_true, if_false]
      rw [bracketScan_filter query.toList 0 (by norm_num)]
      rw [Bool.eq_iff_iff]
      rw [bracketScan_iff query.toList 0 (by norm_num)]
      simp only [zero_add, Bool.and_eq_true, List.all_eq_true, List.mem_range,
        decide_eq_true_eq, beq_iff_eq, Nat.lt_succ_iff]
    · have h1' : (jsStartsWith query "$" || jsStartsWith query "@") = false := by
        cases h : (jsStartsWith query "$" || jsStartsWith query "@")
        · rfl
        · exact absurd h h1
      rw [h1']
      simp

/-! ### Claim C9 -/

/-- Occurrences found by `indexOfFrom` never precede the start position. -/
theorem indexOfFrom_ge (hay pat : List Char) (start i : Nat)
    (h : indexOfFrom hay pat start = some i) : start ≤ i := by
  unfold indexOfFrom at h
  have hp := List.find?_some h
  simp only [Bool.and_eq_true, decide_eq_true_eq] at hp
  exact hp.1

/-- Concatenation distributes over appended segment lists. -/
theorem concatSegs_append (A B : List HighlightSegment) :
    concatSegs (A ++ B) = concatSegs A ++ concatSegs B := by
  induction A with
  | nil => simp [concatSegs]
  | cons seg rest ih =>
    simp only [List.cons_append, concatSegs, List.append_eq, ih, String.append_assoc]

/-- The scanning loop reproduces exactly the unconsumed suffix of the
original text, for every fuel budget and start position. -/
theorem highlightLoop_concat (text textNorm termNorm : List Char) (termLen : Nat) :
    ∀ (fuel lastIndex : Nat),
      concatSegs (highlightLoop text textNorm termNorm termLen fuel lastIndex) =
        ⟨text.drop lastIndex⟩ := by
  intro fuel
  induction fuel with
  | zero =>
    intro lastIndex
    simp only [highlightLoop]
    split
    · simp [concatSegs]
    · have hnil : text.drop lastIndex = [] := by
        apply List.drop_eq_nil_of_le
        omega
      rw [hnil]
      rfl
  | succ fuel ih =>
    intro lastIndex
    cases hfind : indexOfFrom textNorm termNorm lastIndex with
    | none =>
      simp only [highlightLoop, hfind]
      split
      · simp [concatSegs]
      · have hnil : text.drop lastIndex = [] := by
          apply List.drop_eq_nil_of_le
          omega
        rw [hnil]
        rfl
    | some index =>
      have hge : lastIndex ≤ index := indexOfFrom_ge _ _ _ _ hfind
      simp only [highlightLoop, hfind]
      have hsplit2 : (text.drop index).take termLen ++ text.drop (index + termLen) =
          text.drop index := by
        have h1 : (text.drop index).drop termLen = text.drop (index + termLen) := by
          rw [List.drop_drop]
        rw [← h1]
        exact List.take_append_drop termLen (text.drop index)
      by_cases hlt : lastIndex < index
      · rw [if_pos hlt, concatSegs_append]
        simp only [concatSegs]
        rw [ih (index + termLen)]
        have hall : (text.drop lastIndex).take (index - lastIndex) ++
            ((text.drop index).take termLen ++ text.drop (index + termLen)) =
            text.drop lastIndex := by
          rw [hsplit2]
          have h2 : (text.drop lastIndex).drop (index - lastIndex) = text.drop index := by
            rw [List.drop_drop]
            congr 1
            omega
          rw [← h2]
          exact List.take_append_drop (index - lastIndex) (text.drop lastIndex)
        calc (⟨(text.drop lastIndex).take (index - lastIndex)⟩ ++ "" : String) ++
            (⟨(text.drop index).take termLen⟩ ++ ⟨text.drop (index + termLen)⟩) =
            ⟨((text.drop lastIndex).take (index - lastIndex) ++ []) ++
              ((text.drop index).take termLen ++ text.drop (index + termLen))⟩ := rfl
          _ = ⟨(text.drop lastIndex).take (index - lastIndex) ++
              ((text.drop index).take termLen ++ text.drop (index + termLen))⟩ := by
                rw [List.append_nil]
          _ = ⟨text.drop lastIndex⟩ := by rw [hall]
      · rw [if_neg hlt, concatSegs_append]
        simp only [concatSegs]
        rw [ih (index + termLen)]
        have hexact : index = lastIndex := by omega
        subst hexact
        calc ("" ++ "" : String) ++
            (⟨(text.drop index).take termLen⟩ ++ ⟨text.drop (index + termLen)⟩) =
            ⟨(text.drop index).take termLen ++ text.drop (index + termLen)⟩ := rfl
          _ = ⟨text.drop index⟩ := by rw [hsplit2]

/-- Claim C9: concatenating in order the text fields of the segments
returned by `highlightText` reproduces the input string exactly, for
every text, search term and case sensitivity. -/
theorem claim_C9_highlightText (text searchTerm : String) (caseSensitive : Bool) :
    concatSegs (highlightText text searchTerm caseSensitive) = text := by
  unfold highlightText
  split
  · simp [concatSegs]
  · rw [highlightLoop_concat]
    rfl

/-! ### Claim C6 -/

/-- Execution times of a metrics list. -/
def metricTimes (metrics : List QueryMetrics) : List Rat :=
  metrics.map (fun m => m.executionTime)

/-- Claim-side bin width: a tenth of the execution-time span, or one when
all values are equal. -/
def distWidth (metrics : List QueryMetrics) : Rat :=
  if listMax (metricTimes metrics) = listMin (metricTimes metrics) then 1
  else (listMax (metricTimes metrics) - listMin (metricTimes metrics)) / 10

/-- Claim-side lower bound of bin `i`. -/
def distLower (metrics : List QueryMetrics) (i : Nat) : Rat :=
  listMin (metricTimes metrics) + (i : Rat) * distWidth metrics

/-- Claim-side upper bound of bin `i`. -/
def distUpper (metrics : List QueryMetrics) (i : Nat) : Rat :=
  listMin (metricTimes metrics) + ((i : Rat) + 1) * distWidth metrics

/-- Counterexample to C6 as stated over every list: on the empty metrics
list the histogram is empty, not ten bins. -/
theorem claim_C6_counterexample :
    calculateDistribution [] = [] ∧ (calculateDistribution []).length ≠ 10 :=
  ⟨rfl, by decide⟩

/-- Claim-side description of one bin: the formatted label, the count of
times falling between the bin bounds (last bin right-closed), and the
rounded percentage of the total. -/
def distBin (metrics : List QueryMetrics) (i : Nat) : PerformanceDistribution :=
  { range := (ratToFixed1 (distLower metrics i) ++ "-" ++
      ratToFixed1 (distUpper metrics i) ++ "ms"),
    count := (((metricTimes metrics).filter (fun t =>
      distLower metrics i ≤ t ∧
        (if i = 9 then t ≤ distUpper metrics i else t < distUpper metrics i))).length),
    percentage := (jsRound (((((metricTimes metrics).filter (fun t =>
      distLower metrics i ≤ t ∧
        (if i = 9 then t ≤ distUpper metrics i else t < distUpper metrics i))).length : Rat)) /
      (metrics.length : Rat) * 100)) }

/-- Claim C6 (amended to non-empty metrics lists): the histogram has
exactly ten bins; bin `i` counts the times `t` with `lower i ≤ t` and
`t < upper i` (the last bin closing with `t ≤ upper`), where the bin
bounds advance by `(max-min)/10` (or a width of one when all times are
equal) from the minimum; each bin carries that count and the count as a
percentage of the total, rounded to the nearest integer; and with distinct
extremes the last upper bound is exactly the maximum. -/
theorem claim_C6_calculateDistribution (metrics : List QueryMetrics) (h : metrics ≠ []) :
    (calculateDistribution metrics).length = 10 ∧
    (∀ i : Nat, i < 10 →
      ((calculateDistribution metrics).getD i default).count =
        ((metricTimes metrics).filter (fun t =>
          distLower metrics i ≤ t ∧
            (if i = 9 then t ≤ distUpper metrics i else t < distUpper metrics i))).length ∧
      ((calculateDistribution metrics).getD i default).percentage =
        jsRound (((((calculateDistribution metrics).getD i default).count : Rat)) /
          (metrics.length : Rat) * 100)) ∧
    (listMax (metricTimes metrics) ≠ listMin (metricTimes metrics) →
      distUpper metrics 9 = listMax (metricTimes metrics)) := by
  match metrics, h with
  | m :: rest, _ =>
    have hw : (if (listMax (metricTimes (m :: rest)) - listMin (metricTimes (m :: rest))) / 10 = 0
        then (1 : Rat)
        else (listMax (metricTimes (m :: rest)) - listMin (metricTimes (m :: rest))) / 10) =
        distWidth (m :: rest) := by
      unfold distWidth
      have hc : ((listMax (metricTimes (m :: rest)) - listMin (metricTimes (m :: rest))) / 10 = 0) ↔
          (listMax (metricTimes (m :: rest)) = listMin (metricTimes (m :: rest))) := by
        rw [div_eq_zero_iff]
        constructor
        · rintro (h1 | h1)
          · exact sub_eq_zero.mp h1
          · norm_num at h1
        · intro h1
          exact Or.inl (sub_eq_zero.mpr h1)
      by_cases hcc : (listMax (metricTimes (m :: rest)) - listMin (metricTimes (m :: rest))) / 10 = 0
      · rw [if_pos hcc, if_pos (hc.mp hcc)]
      · rw [if_neg hcc, if_neg (fun hx => hcc (hc.mpr hx))]
    have hdist : calculateDistribution (m :: rest) =
        (List.range 10).map (distBin (m :: rest)) := by
      unfold calculateDistribution
      simp only [metricTimes] at hw ⊢
      rw [hw]
      congr 1
    have hget : ∀ i : Nat, i < 10 →
        (calculateDistribution (m :: rest)).getD i default = distBin (m :: rest) i := by
      intro i hi
      rw [hdist, List.getD_eq_getElem?_getD, List.getElem?_map, List.getElem?_range hi]
      rfl
    refine ⟨?_, ?_, ?_⟩
    · rw [hdist]
      simp
    · intro i hi
      rw [hget i hi]
      exact ⟨rfl, rfl⟩
    · intro hne
      unfold distUpper distWidth
      rw [if_neg hne]
      push_cast
      field_simp
      ring

/-- Concrete two-sample metrics list used to exercise the histogram. -/
def c6Metrics : List QueryMetrics :=
  [⟨"a", "q", 10, 0, 0, 1, none⟩, ⟨"b", "r", 30, 0, 0, 1, none⟩]

/-- Witness for the amended C6 on a concrete two-sample list. -/
theorem claim_C6_witness :
    (calculateDistribution c6Metrics).length = 10 ∧
    ((calculateDistribution c6Metrics).getD 0 default).count =
      ((metricTimes c6Metrics).filter (fun t =>
        distLower c6Metrics 0 ≤ t ∧
          (if (0 : Nat) = 9 then t ≤ distUpper c6Metrics 0
           else t < distUpper c6Metrics 0))).length :=
  ⟨(claim_C6_calculateDistribution c6Metrics (List.cons_ne_nil _ _)).1,
    ((claim_C6_calculateDistribution c6Metrics (List.cons_ne_nil _ _)).2.1 0 (by decide)).1⟩

/-! ### Claim C7 -/

/-- Totality of the code-unit string order. -/
theorem charListLe_total : ∀ a b : List Char, charListLe a b = true ∨ charListLe b a = true := by
  intro a
  induction a with
  | nil => intro b; left; rfl
  | cons x xs ih =>
    intro b
    cases b with
    | nil => right; rfl
    | cons y ys =>
      by_cases h1 : x.toNat < y.toNat
      · left
        simp [charListLe, h1]
      · by_cases h2 : y.toNat < x.toNat
        · right
          simp [charListLe, h2]
        · rcases ih ys with h | h
          · left
            simp [charListLe, h1, h2, h]
          · right
            simp [charListLe, h1, h2, h]

/-- Transitivity of the code-unit string order. -/
theorem charListLe_trans : ∀ a b c : List Char,
    charListLe a b = true → charListLe b c = true → charListLe a c = true := by
  intro a
  induction a with
  | nil => intro b c _ _; rfl
  | cons x xs ih =>
    intro b c hab hbc
    cases b with
    | nil => simp [charListLe] at hab
    | cons y ys =>
      cases c with
      | nil => simp [charListLe] at hbc
      | cons z zs =>
        simp only [charListLe] at hab hbc ⊢
        by_cases hxy : x.toNat < y.toNat
        · by_cases hyz : y.toNat < z.toNat
          · have hxz : x.toNat < z.toNat := by omega
            simp [hxz]
          · by_cases hzy : z.toNat < y.toNat
            · simp [hyz, hzy] at hbc
            · have hxz : x.toNat < z.toNat := by omega
              simp [hxz]
        · by_cases hyx : y.toNat < x.toNat
          · simp [hxy, hyx] at hab
          · by_cases hyz : y.toNat < z.toNat
            · have hxz : x.toNat < z.toNat := by omega
              simp [hxz]
            · by_cases hzy : z.toNat < y.toNat
              · simp [hyz, hzy] at hbc
              · have hxz : ¬ x.toNat < z.toNat := by omega
                have hzx : ¬ z.toNat < x.toNat := by omega
                simp only [hxy, hyx, if_false] at hab
                simp only [hyz, hzy, if_false] at hbc
                simp only [hxz, hzx, if_false]
                exact ih ys zs hab hbc

/-- Totality for the string wrapper. -/
theorem strLe_total (a b : String) : strLe a b = true ∨ strLe b a = true :=
  charListLe_total a.toList b.toList

/-- Transitivity for the string wrapper. -/
theorem strLe_trans (a b c : String) (h1 : strLe a b = true) (h2 : strLe b c = true) :
    strLe a c = true :=
  charListLe_trans a.toList b.toList c.toList h1 h2

/-- Membership through sorted insertion. -/
theorem mem_insertSorted (x a : String) : ∀ l : List String,
    a ∈ insertSorted x l ↔ a = x ∨ a ∈ l := by
  intro l
  induction l with
  | nil => simp [insertSorted]
  | cons y ys ih =>
    simp only [insertSorted]
    split
    · simp [List.mem_cons]
    · rw [List.mem_cons, ih]
      simp only [List.mem_cons]
      tauto

/-- Sorted insertion preserves sortedness. -/
theorem pairwise_insertSorted (x : String) : ∀ l : List String,
    List.Pairwise (fun a b => strLe a b = true) l →
    List.Pairwise (fun a b => strLe a b = true) (insertSorted x l) := by
  intro l
  induction l with
  | nil => intro _; exact List.pairwise_singleton _ _
  | cons y ys ih =>
    intro h
    rw [List.pairwise_cons] at h
    simp only [insertSorted]
    by_cases hxy : strLe x y = true
    · rw [if_pos hxy, List.pairwise_cons]
      constructor
      · intro b hb
        rcases List.mem_cons.mp hb with rfl | hb2
        · exact hxy
        · exact strLe_trans x y b hxy (h.1 b hb2)
      · exact List.pairwise_cons.mpr h
    · rw [if_neg hxy, List.pairwise_cons]
      constructor
      · intro b hb
        rw [mem_insertSorted] at hb
        rcases hb with rfl | hb2
        · rcases strLe_total b y with h3 | h3
          · exact absurd h3 hxy
          · exact h3
        · exact h.1 b hb2
      · exact ih h.2

/-- The insertion sort of the collected keys is sorted. -/
theorem pairwise_insertionSort : ∀ l : List String,
    List.Pairwise (fun a b => strLe a b = true) (insertionSort l) := by
  intro l
  induction l with
  | nil => exact List.Pairwise.nil
  | cons x xs ih => exact pairwise_insertSorted x (insertionSort xs) ih

/-- Sorting neither adds nor drops keys. -/
theorem mem_insertionSort (a : String) : ∀ l : List String,
    a ∈ insertionSort l ↔ a ∈ l := by
  intro l
  induction l with
  | nil => simp [insertionSort]
  | cons x xs ih =>
    simp only [insertionSort]
    rw [mem_insertSorted, ih, List.mem_cons]

/-- Membership in the per-row key fold: exactly the seed keys and the
keys of the row. -/
theorem mem_rowFold (k : String) : ∀ (row : List (String × Json)) (acc : List String),
    (k ∈ row.foldl (fun a p => if a.contains p.1 then a else a ++ [p.1]) acc) ↔
      k ∈ acc ∨ ∃ p ∈ row, p.1 = k := by
  intro row
  induction row with
  | nil => intro acc; simp
  | cons p ps ih =>
    intro acc
    simp only [List.foldl_cons]
    rw [ih]
    by_cases hc : acc.contains p.1 = true
    · rw [if_pos hc]
      have hp : p.1 ∈ acc := List.elem_iff.mp hc
      constructor
      · rintro (h | ⟨q, hq, rfl⟩)
        · exact Or.inl h
        · exact Or.inr ⟨q, List.mem_cons_of_mem _ hq, rfl⟩
      · rintro (h | ⟨q, hq, rfl⟩)
        · exact Or.inl h
        · rcases List.mem_cons.mp hq with rfl | hq2
          · exact Or.inl hp
          · exact Or.inr ⟨q, hq2, rfl⟩
    · rw [if_neg hc]
      constructor
      · rintro (h | ⟨q, hq, rfl⟩)
        · rcases List.mem_append.mp h with h2 | h2
          · exact Or.inl h2
          · refine Or.inr ⟨p, List.mem_cons_self _ _, ?_⟩
            have : k = p.1 := by simpa using h2
            exact this.symm
        · exact Or.inr ⟨q, List.mem_cons_of_mem _ hq, rfl⟩
      · rintro (h | ⟨q, hq, rfl⟩)
        · exact Or.inl (List.mem_append.mpr (Or.inl h))
        · rcases List.mem_cons.mp hq with rfl | hq2
          · exact Or.inl (List.mem_append.mpr (Or.inr (by simp)))
          · exact Or.inr ⟨q, hq2, rfl⟩

/-- Membership in the collected key set: exactly the keys appearing in
some flattened row. -/
theorem mem_collectKeys (k : String) : ∀ rows : List (List (String × Json)),
    (k ∈ collectKeys rows ↔ ∃ row ∈ rows, ∃ p ∈ row, p.1 = k) := by
  have main : ∀ (rows : List (List (String × Json))) (acc : List String),
      (k ∈ rows.foldl (fun acc row => row.foldl
          (fun a p => if a.contains p.1 then a else a ++ [p.1]) acc) acc ↔
        k ∈ acc ∨ ∃ row ∈ rows, ∃ p ∈ row, p.1 = k) := by
    intro rows
    induction rows with
    | nil => intro acc; simp
    | cons row rs ih =>
      intro acc
      simp only [List.foldl_cons]
      rw [ih, mem_rowFold]
      simp only [List.mem_cons]
      constructor
      · rintro ((h | h) | ⟨r, hr, hp⟩)
        · exact Or.inl h
        · exact Or.inr ⟨row, Or.inl rfl, h⟩
        · exact Or.inr ⟨r, Or.inr hr, hp⟩
      · rintro (h | ⟨r, (rfl | hr), hp⟩)
        · exact Or.inl (Or.inl h)
        · exact Or.inl (Or.inr hp)
        · exact Or.inr ⟨r, hr, hp⟩
  intro rows
  unfold collectKeys
  rw [main]
  simp

/-- A key absent from a flattened row renders as the empty cell. -/
theorem csvCell_missing (row : List (String × Json)) (k : String)
    (h : ∀ p ∈ row, p.1 ≠ k) : csvCell row k = "" := by
  unfold csvCell rowLookup
  rw [List.find?_eq_none.mpr]
  · rfl
  · intro p hp
    simp only [beq_iff_eq]
    exact h p hp

/-- Claim C7: for non-empty input the column set of `jsonToCsv` is the
union of the keys of all flattened rows, sorted by the code-unit string
order; the output consists of the header line followed by one line per
row whose cells follow that same sorted key order; and a key missing from
a row renders as the empty cell. -/
theorem claim_C7_jsonToCsv (data : List Json) (opts : CsvExportOptions) (h : data ≠ []) :
    List.Pairwise (fun a b => strLe a b = true) (csvSortedKeys data opts.maxDepth) ∧
    (∀ k, k ∈ csvSortedKeys data opts.maxDepth ↔
      ∃ row ∈ csvFlattenedRows data opts.maxDepth, ∃ p ∈ row, p.1 = k) ∧
    jsonToCsv data opts = String.intercalate "\n"
      (String.intercalate ","
          (((if opts.includeRowNumbers then ["#"] else []) ++
            csvSortedKeys data opts.maxDepth).map escString) ::
        csvLinesAux (csvSortedKeys data opts.maxDepth) opts.includeRowNumbers 0
          (csvFlattenedRows data opts.maxDepth)) ∧
    (∀ row ∈ csvFlattenedRows data opts.maxDepth, ∀ k,
      (∀ p ∈ row, p.1 ≠ k) → csvCell row k = "") := by
  refine ⟨pairwise_insertionSort _, ?_, ?_, ?_⟩
  · intro k
    unfold csvSortedKeys
    rw [mem_insertionSort, mem_collectKeys]
  · match data, h with
    | d :: ds, _ => rfl
  · intro row _ k hk
    exact csvCell_missing row k hk

/-- Witness for C7: the specification example row exports with header
`a,b` and the comma-containing field quoted. -/
theorem claim_C7_witness :
    List.Pairwise (fun a b => strLe a b = true)
      (csvSortedKeys [Json.obj [("a", .num 1), ("b", .str "x,y")]] 5) ∧
    jsonToCsv [Json.obj [("a", .num 1), ("b", .str "x,y")]] ⟨5, false⟩ = "a,b\n1,\"x,y\"" :=
  ⟨(claim_C7_jsonToCsv [Json.obj [("a", .num 1), ("b", .str "x,y")]] ⟨5, false⟩
      (List.cons_ne_nil _ _)).1, by decide⟩

/-! ### Claim C3 -/

mutual
/-- Number of nodes of a schema tree. -/
def countNode : FieldNode → Nat
  | .mk _ _ _ none _ _ => 1
  | .mk _ _ _ (some cs) _ _ => 1 + countForest cs

/-- Node count of a forest. -/
def countForest : List FieldNode → Nat
  | [] => 0
  | n :: rest => countNode n + countForest rest
end

mutual
/-- Height of a schema tree. -/
def heightNode : FieldNode → Nat
  | .mk _ _ _ none _ _ => 1
  | .mk _ _ _ (some cs) _ _ => 1 + heightForest cs

/-- Height of a forest. -/
def heightForest : List FieldNode → Nat
  | [] => 0
  | n :: rest => max (heightNode n) (heightForest rest)
end

/-- Node count through the `children` accessor. -/
theorem countNode_eq (n : FieldNode) :
    countNode n = 1 + countForest ((FieldNode.children n).getD []) := by
  cases n with
  | mk a b c ch d e => cases ch <;> rfl

/-- Height through the `children` accessor. -/
theorem heightNode_eq (n : FieldNode) :
    heightNode n = 1 + heightForest ((FieldNode.children n).getD []) := by
  cases n with
  | mk a b c ch d e => cases ch <;> rfl

/-- Good behavior of `analyzeValue` on one value: beyond the bound the
traversal produces nothing; the recorded maximal depth stays within the
bound; within the bound a node is produced whose subtree size is exactly
the `totalFields` contribution and whose height respects the remaining
depth budget. -/
def AVGood (md : Nat) (v : Json) : Prop :=
  ∀ (name path : String) (depth : Nat),
    (md < depth → analyzeValue md v name path depth = (none, 0, 0)) ∧
    (analyzeValue md v name path depth).2.2 ≤ md ∧
    (depth ≤ md → ∃ n, (analyzeValue md v name path depth).1 = some n ∧
      (analyzeValue md v name path depth).2.1 = countNode n ∧
      heightNode n + depth ≤ md + 1)

/-- Good behavior of the entry traversal, given good behavior of every
entry value. -/
theorem analyzeEntries_good (md : Nat) : ∀ (entries : List (String × Json)),
    (∀ kv ∈ entries, AVGood md kv.2) → ∀ (pfx : String) (depth : Nat),
      (md < depth → analyzeEntries md entries pfx depth = ([], 0, 0)) ∧
      (analyzeEntries md entries pfx depth).2.2 ≤ md ∧
      (analyzeEntries md entries pfx depth).2.1 =
        countForest (analyzeEntries md entries pfx depth).1 ∧
      (depth ≤ md + 1 →
        heightForest (analyzeEntries md entries pfx depth).1 + depth ≤ md + 1) := by
  intro entries
  induction entries with
  | nil =>
    intro _ pfx depth
    refine ⟨fun _ => rfl, ?_, ?_, ?_⟩
    · simp [analyzeEntries]
    · rfl
    · intro hle
      simpa [analyzeEntries, heightForest] using hle
  | cons kv rest ih =>
    intro H pfx depth
    obtain ⟨k, v⟩ := kv
    have Hv : AVGood md v := H (k, v) (List.mem_cons_self _ _)
    have Hrest := ih (fun q hq => H q (List.mem_cons_of_mem _ hq)) pfx depth
    obtain ⟨hv1, hv2, hv3⟩ := Hv k (pfx ++ k) depth
    refine ⟨?_, ?_, ?_, ?_⟩
    · intro hlt
      simp only [analyzeEntries]
      rw [hv1 hlt, Hrest.1 hlt]
      rfl
    · simp only [analyzeEntries]
      have := Hrest.2.1
      simp only [max_le_iff]
      exact ⟨hv2, Hrest.2.1⟩
    · by_cases hle : depth ≤ md
      · obtain ⟨n, hn, hcnt, _⟩ := hv3 hle
        simp only [analyzeEntries]
        rw [hn]
        simp only [countForest]
        rw [hcnt, Hrest.2.2.1]
      · have hlt : md < depth := Nat.not_le.mp hle
        simp only [analyzeEntries]
        rw [hv1 hlt, Hrest.1 hlt]
        rfl
    · intro hdep
      by_cases hle : depth ≤ md
      · obtain ⟨n, hn, _, hht⟩ := hv3 hle
        simp only [analyzeEntries]
        rw [hn]
        simp only [heightForest]
        have h2 := Hrest.2.2.2 hdep
        omega
      · have hlt : md < depth := Nat.not_le.mp hle
        simp only [analyzeEntries]
        rw [hv1 hlt, Hrest.1 hlt]
        simpa [heightForest] using hdep

/-- Good behavior of the index traversal over an array-valued first
element, given good behavior of every item. -/
theorem analyzeItems_good (md : Nat) : ∀ (items : List Json),
    (∀ x ∈ items, AVGood md x) → ∀ (idx : Nat) (pfx : String) (depth : Nat),
      (md < depth → analyzeItems md items idx pfx depth = ([], 0, 0)) ∧
      (analyzeItems md items idx pfx depth).2.2 ≤ md ∧
      (analyzeItems md items idx pfx depth).2.1 =
        countForest (analyzeItems md items idx pfx depth).1 ∧
      (depth ≤ md + 1 →
        heightForest (analyzeItems md items idx pfx depth).1 + depth ≤ md + 1) := by
  intro items
  induction items with
  | nil =>
    intro _ idx pfx depth
    refine ⟨fun _ => rfl, ?_, ?_, ?_⟩
    · simp [analyzeItems]
    · rfl
    · intro hle
      simpa [analyzeItems, heightForest] using hle
  | cons v rest ih =>
    intro H idx pfx depth
    have Hv : AVGood md v := H v (List.mem_cons_self _ _)
    have Hrest := ih (fun q hq => H q (List.mem_cons_of_mem _ hq)) (idx + 1) pfx depth
    obtain ⟨hv1, hv2, hv3⟩ := Hv (natToStr idx) (pfx ++ natToStr idx) depth
    refine ⟨?_, ?_, ?_, ?_⟩
    · intro hlt
      simp only [analyzeItems]
      rw [hv1 hlt, Hrest.1 hlt]
      rfl
    · simp only [analyzeItems]
      simp only [max_le_iff]
      exact ⟨hv2, Hrest.2.1⟩
    · by_cases hle : depth ≤ md
      · obtain ⟨n, hn, hcnt, _⟩ := hv3 hle
        simp only [analyzeItems]
        rw [hn]
        simp only [countForest]
        rw [hcnt, Hrest.2.2.1]
      · have hlt : md < depth := Nat.not_le.mp hle
        simp only [analyzeItems]
        rw [hv1 hlt, Hrest.1 hlt]
        rfl
    · intro hdep
      by_cases hle : depth ≤ md
      · obtain ⟨n, hn, _, hht⟩ := hv3 hle
        simp only [analyzeItems]
        rw [hn]
        simp only [heightForest]
        have h2 := Hrest.2.2.2 hdep
        omega
      · have hlt : md < depth := Nat.not_le.mp hle
        simp only [analyzeItems]
        rw [hv1 hlt, Hrest.1 hlt]
        simpa [heightForest] using hdep

/-- Unfolding of `analyzeValue` at a null value. -/
theorem analyzeValue_eq_null (md : Nat) (name path : String) (depth : Nat) :
    analyzeValue md .null name path depth =
      if md < depth then (none, 0, 0)
      else (some (.mk name path (getType .null) none none none), 1, depth) := rfl

/-- Unfolding of `analyzeValue` at an object value. -/
theorem analyzeValue_eq_obj (md : Nat) (entries : List (String × Json))
    (name path : String) (depth : Nat) :
    analyzeValue md (.obj entries) name path depth =
      if md < depth then (none, 0, 0)
      else
        (some (.mk name path (getType (.obj entries))
          (some (analyzeEntries md entries
            (if path = "" then "" else path ++ ".") (depth + 1)).1) none none),
          1 + (analyzeEntries md entries
            (if path = "" then "" else path ++ ".") (depth + 1)).2.1,
          max depth (analyzeEntries md entries
            (if path = "" then "" else path ++ ".") (depth + 1)).2.2) := rfl

/-- Unfolding of `analyzeValue` at a boolean value. -/
theorem analyzeValue_eq_bool (md : Nat) (b : Bool) (name path : String) (depth : Nat) :
    analyzeValue md (.bool b) name path depth =
      if md < depth then (none, 0, 0)
      else (some (.mk name path (getType (.bool b)) none none none), 1, depth) := rfl

/-- Unfolding of `analyzeValue` at a numeric value. -/
theorem analyzeValue_eq_num (md : Nat) (n : Int) (name path : String) (depth : Nat) :
    analyzeValue md (.num n) name path depth =
      if md < depth then (none, 0, 0)
      else (some (.mk name path (getType (.num n)) none none none), 1, depth) := rfl

/-- Unfolding of `analyzeValue` at a string value. -/
theorem analyzeValue_eq_str (md : Nat) (s : String) (name path : String) (depth : Nat) :
    analyzeValue md (.str s) name path depth =
      if md < depth then (none, 0, 0)
      else (some (.mk name path (getType (.str s)) none none none), 1, depth) := rfl

/-- Unfolding of `analyzeValue` at an empty array. -/
theorem analyzeValue_eq_arrNil (md : Nat) (name path : String) (depth : Nat) :
    analyzeValue md (.arr []) name path depth =
      if md < depth then (none, 0, 0)
      else (some (.mk name path (getType (.arr [])) none (some true) none), 1, depth) := rfl

/-- Unfolding of `analyzeValue` at an array whose first element is null. -/
theorem analyzeValue_eq_arr_null (md : Nat) (rest : List Json)
    (name path : String) (depth : Nat) :
    analyzeValue md (.arr (.null :: rest)) name path depth =
      if md < depth then (none, 0, 0)
      else (some (.mk name path (getType (.arr (.null :: rest))) none (some true)
        (some (getType .null))), 1, depth) := rfl

/-- Unfolding of `analyzeValue` at an array whose first element is a boolean. -/
theorem analyzeValue_eq_arr_bool (md : Nat) (b : Bool) (rest : List Json)
    (name path : String) (depth : Nat) :
    analyzeValue md (.arr (.bool b :: rest)) name path depth =
      if md < depth then (none, 0, 0)
      else (some (.mk name path (getType (.arr (.bool b :: rest))) none (some true)
        (some (getType (.bool b)))), 1, depth) := rfl

/-- Unfolding of `analyzeValue` at an array whose first element is numeric. -/
theorem analyzeValue_eq_arr_num (md : Nat) (n : Int) (rest : List Json)
    (name path : String) (depth : Nat) :
    analyzeValue md (.arr (.num n :: rest)) name path depth =
      if md < depth then (none, 0, 0)
      else (some (.mk name path (getType (.arr (.num n :: rest))) none (some true)
        (some (getType (.num n)))), 1, depth) := rfl

/-- Unfolding of `analyzeValue` at an array whose first element is a string. -/
theorem analyzeValue_eq_arr_str (md : Nat) (s : String) (rest : List Json)
    (name path : String) (depth : Nat) :
    analyzeValue md (.arr (.str s :: rest)) name path depth =
      if md < depth then (none, 0, 0)
      else (some (.mk name path (getType (.arr (.str s :: rest))) none (some true)
        (some (getType (.str s)))), 1, depth) := rfl

/-- Unfolding of `analyzeValue` at an array whose first element is an object. -/
theorem analyzeValue_eq_arr_obj (md : Nat) (entries : List (String × Json)) (rest : List Json)
    (name path : String) (depth : Nat) :
    analyzeValue md (.arr (.obj entries :: rest)) name path depth =
      if md < depth then (none, 0, 0)
      else
        (some (.mk name path (getType (.arr (.obj entries :: rest)))
          (some (analyzeEntries md entries (path ++ "[*].") (depth + 1)).1) (some true)
          (some (getType (.obj entries)))),
          1 + (analyzeEntries md entries (path ++ "[*].") (depth + 1)).2.1,
          max depth (analyzeEntries md entries (path ++ "[*].") (depth + 1)).2.2) := rfl

/-- Unfolding of `analyzeValue` at an array whose first element is an array. -/
theorem analyzeValue_eq_arr_arr (md : Nat) (inner rest : List Json)
    (name path : String) (depth : Nat) :
    analyzeValue md (.arr (.arr inner :: rest)) name path depth =
      if md < depth then (none, 0, 0)
      else
        (some (.mk name path (getType (.arr (.arr inner :: rest)))
          (some (analyzeItems md inner 0 (path ++ "[*].") (depth + 1)).1) (some true)
          (some (getType (.arr inner)))),
          1 + (analyzeItems md inner 0 (path ++ "[*].") (depth + 1)).2.1,
          max depth (analyzeItems md inner 0 (path ++ "[*].") (depth + 1)).2.2) := rfl

/-- Values analyzed to a childless node behave well. -/
theorem AVGood_of_leaf (md : Nat) (v : Json) (node : String → String → FieldNode)
    (heq : ∀ name path depth, analyzeValue md v name path depth =
      if md < depth then (none, 0, 0) else (some (node name path), 1, depth))
    (hnode : ∀ name path, heightNode (node name path) = 1 ∧ countNode (node name path) = 1) :
    AVGood md v := by
  intro name path depth
  refine ⟨?_, ?_, ?_⟩
  · intro hlt
    rw [heq, if_pos hlt]
  · rw [heq]
    by_cases hlt : md < depth
    · simp [hlt]
    · simp only [hlt, if_false]
      omega
  · intro hle
    rw [heq, if_neg (Nat.not_lt.mpr hle)]
    refine ⟨node name path, rfl, ?_, ?_⟩
    · simp [(hnode name path).2]
    · have := (hnode name path).1
      omega

/-- Every JSON value behaves well under `analyzeValue`, by strong
induction on the size of the value. -/
theorem analyzeValue_good (md : Nat) : ∀ (N : Nat) (v : Json), sizeOf v < N → AVGood md v := by
  intro N
  induction N with
  | zero =>
    intro v hv
    exact absurd hv (Nat.not_lt_zero _)
  | succ N ihN =>
    intro v hv
    cases v with
    | null =>
      exact AVGood_of_leaf md _ _ (analyzeValue_eq_null md) (fun _ _ => ⟨rfl, rfl⟩)
    | bool b =>
      exact AVGood_of_leaf md _ _ (analyzeValue_eq_bool md b) (fun _ _ => ⟨rfl, rfl⟩)
    | num n =>
      exact AVGood_of_leaf md _ _ (analyzeValue_eq_num md n) (fun _ _ => ⟨rfl, rfl⟩)
    | str s =>
      exact AVGood_of_leaf md _ _ (analyzeValue_eq_str md s) (fun _ _ => ⟨rfl, rfl⟩)
    | obj entries =>
      have Hentries : ∀ kv ∈ entries, AVGood md kv.2 := by
        intro kv hkv
        apply ihN kv.2
        have h1 := List.sizeOf_lt_of_mem hkv
        have h2 : sizeOf kv.2 < sizeOf kv := by
          obtain ⟨a, b⟩ := kv
          simp only [Prod.mk.sizeOf_spec]
          omega
        have h3 : sizeOf (Json.obj entries) = 1 + sizeOf entries := by
          simp
        omega
      intro name path depth
      have hE := analyzeEntries_good md entries Hentries
        (if path = "" then "" else path ++ ".") (depth + 1)
      refine ⟨?_, ?_, ?_⟩
      · intro hlt
        rw [analyzeValue_eq_obj, if_pos hlt]
      · rw [analyzeValue_eq_obj]
        by_cases hlt : md < depth
        · simp [hlt]
        · rw [if_neg hlt]
          exact max_le_iff.mpr ⟨by omega, hE.2.1⟩
      · intro hle
        rw [analyzeValue_eq_obj, if_neg (Nat.not_lt.mpr hle)]
        refine ⟨_, rfl, ?_, ?_⟩
        · exact congrArg (fun x => 1 + x) hE.2.2.1
        · show 1 + heightForest (analyzeEntries md entries
            (if path = "" then "" else path ++ ".") (depth + 1)).1 + depth ≤ md + 1
          have hht := hE.2.2.2 (by omega)
          omega
    | arr items =>
      cases items with
      | nil =>
        exact AVGood_of_leaf md _ _ (analyzeValue_eq_arrNil md) (fun _ _ => ⟨rfl, rfl⟩)
      | cons firstItem rest =>
        have hsz : sizeOf firstItem < N := by
          have h1 : sizeOf (Json.arr (firstItem :: rest)) =
              1 + (1 + sizeOf firstItem + sizeOf rest) := by
            simp
          omega
        cases firstItem with
        | null =>
          exact AVGood_of_leaf md _ _ (analyzeValue_eq_arr_null md rest) (fun _ _ => ⟨rfl, rfl⟩)
        | bool b =>
          exact AVGood_of_leaf md _ _ (analyzeValue_eq_arr_bool md b rest) (fun _ _ => ⟨rfl, rfl⟩)
        | num n =>
          exact AVGood_of_leaf md _ _ (analyzeValue_eq_arr_num md n rest) (fun _ _ => ⟨rfl, rfl⟩)
        | str s =>
          exact AVGood_of_leaf md _ _ (analyzeValue_eq_arr_str md s rest) (fun _ _ => ⟨rfl, rfl⟩)
        | obj entries =>
          have Hentries : ∀ kv ∈ entries, AVGood md kv.2 := by
            intro kv hkv
            apply ihN kv.2
            have h1 := List.sizeOf_lt_of_mem hkv
            have h2 : sizeOf kv.2 < sizeOf kv := by
              obtain ⟨a, b⟩ := kv
              simp only [Prod.mk.sizeOf_spec]
              omega
            have h3 : sizeOf (Json.obj entries) = 1 + sizeOf entries := by
              simp
            omega
          intro name path depth
          have hE := analyzeEntries_good md entries Hentries (path ++ "[*].") (depth + 1)
          refine ⟨?_, ?_, ?_⟩
          · intro hlt
            rw [analyzeValue_eq_arr_obj, if_pos hlt]
          · rw [analyzeValue_eq_arr_obj]
            by_cases hlt : md < depth
            · simp [hlt]
            · rw [if_neg hlt]
              exact max_le_iff.mpr ⟨by omega, hE.2.1⟩
          · intro hle
            rw [analyzeValue_eq_arr_obj, if_neg (Nat.not_lt.mpr hle)]
            refine ⟨_, rfl, ?_, ?_⟩
            · exact congrArg (fun x => 1 + x) hE.2.2.1
            · show 1 + heightForest (analyzeEntries md entries
                (path ++ "[*].") (depth + 1)).1 + depth ≤ md + 1
              have hht := hE.2.2.2 (by omega)
              omega
        | arr inner =>
          have Hinner : ∀ x ∈ inner, AVGood md x := by
            intro x hx
            apply ihN x
            have h1 := List.sizeOf_lt_of_mem hx
            have h3 : sizeOf (Json.arr inner) = 1 + sizeOf inner := by
              simp
            omega
          intro name path depth
          have hE := analyzeItems_good md inner Hinner 0 (path ++ "[*].") (depth + 1)
          refine ⟨?_, ?_, ?_⟩
          · intro hlt
            rw [analyzeValue_eq_arr_arr, if_pos hlt]
          · rw [analyzeValue_eq_arr_arr]
            by_cases hlt : md < depth
            · simp [hlt]
            · rw [if_neg hlt]
              exact max_le_iff.mpr ⟨by omega, hE.2.1⟩
          · intro hle
            rw [analyzeValue_eq_arr_arr, if_neg (Nat.not_lt.mpr hle)]
            refine ⟨_, rfl, ?_, ?_⟩
            · exact congrArg (fun x => 1 + x) hE.2.2.1
            · show 1 + heightForest (analyzeItems md inner 0
                (path ++ "[*].") (depth + 1)).1 + depth ≤ md + 1
              have hht := hE.2.2.2 (by omega)
              omega

/-- Every JSON value behaves well, unconditionally. -/
theorem analyzeValue_good_all (md : Nat) (v : Json) : AVGood md v :=
  analyzeValue_good md (sizeOf v + 1) v (Nat.lt_succ_self _)

/-- Unfolding of `analyzeSchema` at an array root. -/
theorem analyzeSchema_eq_arr (items : List Json) (maxDepth : Nat) :
    analyzeSchema (.arr items) maxDepth =
      ⟨(match (analyzeValue maxDepth (.arr items) "root" "$" 0).1 with
        | some n => (FieldNode.children n).getD []
        | none => []),
       (analyzeValue maxDepth (.arr items) "root" "$" 0).2.2,
       (analyzeValue maxDepth (.arr items) "root" "$" 0).2.1⟩ := rfl

/-- Unfolding of `analyzeSchema` at an object root. -/
theorem analyzeSchema_eq_obj (entries : List (String × Json)) (maxDepth : Nat) :
    analyzeSchema (.obj entries) maxDepth =
      ⟨(analyzeEntries maxDepth entries "$." 0).1,
       (analyzeEntries maxDepth entries "$." 0).2.2,
       (analyzeEntries maxDepth entries "$." 0).2.1⟩ := rfl

/-- Claim C3: the reported depth of `analyzeSchema` never exceeds the
depth bound; the height of the produced field forest stays within the
bound (no node is created past it); and `totalFields` counts exactly the
nodes present in the output (plus the virtual root node when the root is
an array), so omitted subtrees are not counted. -/
theorem claim_C3_analyzeSchema (v : Json) (maxDepth : Nat) :
    (analyzeSchema v maxDepth).depth ≤ maxDepth ∧
    heightForest (analyzeSchema v maxDepth).fields ≤ maxDepth + 1 ∧
    (analyzeSchema v maxDepth).totalFields =
      countForest (analyzeSchema v maxDepth).fields +
        (match v with | .arr _ => 1 | _ => 0) := by
  cases v with
  | null => exact ⟨Nat.zero_le _, Nat.zero_le _, rfl⟩
  | bool b => exact ⟨Nat.zero_le _, Nat.zero_le _, rfl⟩
  | num n => exact ⟨Nat.zero_le _, Nat.zero_le _, rfl⟩
  | str s => exact ⟨Nat.zero_le _, Nat.zero_le _, rfl⟩
  | obj entries =>
    have hE := analyzeEntries_good maxDepth entries
      (fun kv _ => analyzeValue_good_all maxDepth kv.2) "$." 0
    rw [analyzeSchema_eq_obj]
    refine ⟨hE.2.1, ?_, ?_⟩
    · show heightForest (analyzeEntries maxDepth entries "$." 0).1 ≤ maxDepth + 1
      have := hE.2.2.2 (by omega)
      omega
    · show (analyzeEntries maxDepth entries "$." 0).2.1 =
        countForest (analyzeEntries maxDepth entries "$." 0).1 + 0
      have := hE.2.2.1
      omega
  | arr items =>
    obtain ⟨h1, h2, h3⟩ := analyzeValue_good_all maxDepth (.arr items) "root" "$" 0
    obtain ⟨n, hn, hcnt, hht⟩ := h3 (Nat.zero_le maxDepth)
    have hmatch : (match (analyzeValue maxDepth (.arr items) "root" "$" 0).1 with
        | some n => (FieldNode.children n).getD []
        | none => ([] : List FieldNode)) = (FieldNode.children n).getD [] := by
      rw [hn]
    rw [analyzeSchema_eq_arr]
    refine ⟨h2, ?_, ?_⟩
    · show heightForest (match (analyzeValue maxDepth (.arr items) "root" "$" 0).1 with
        | some n => (FieldNode.children n).getD []
        | none => []) ≤ maxDepth + 1
      rw [hmatch]
      have he := heightNode_eq n
      omega
    · show (analyzeValue maxDepth (.arr items) "root" "$" 0).2.1 =
        countForest (match (analyzeValue maxDepth (.arr items) "root" "$" 0).1 with
          | some n => (FieldNode.children n).getD []
          | none => []) + 1
      rw [hmatch, hcnt, countNode_eq n]
      omega
